import Mathlib

/-!
Shallow embedding of the limit order matching engine in
src/experiments/test_matcher.rs: the data model (Order, Fill, PriceLevel,
Matcher), the matching algorithm (match_bid / match_ask realised by a
comparator-parameterised matchLoop over the sorted level list, exactly as the
Rust nested while loops walk the BTreeMap and each level's VecDeque), and the
query surface (best_bid, best_ask).  The BTreeMap keyed by price (Reverse
price for bids) is embedded as a list of price levels sorted best-price-first,
which is precisely the iteration order the Rust code observes through
first_entry.  Machine integers (u64) are modelled as Nat; the places where the
Rust subtraction could underflow are treated separately by a checked variant
further below.
-/

/-- Side of an order: Bid or Ask (enum Side in the source). -/
inductive Side where
  | bid
  | ask
deriving DecidableEq, Repr

/-- Order struct: id, price, quantity, filled, timestamp, side. -/
structure Order where
  id : Nat
  price : Nat
  quantity : Nat
  filled : Nat
  timestamp : Nat
  side : Side
deriving DecidableEq, Repr

/-- Order::new — fresh order with filled = 0. -/
def Order.new (id price quantity : Nat) (side : Side) (timestamp : Nat) : Order :=
  { id := id, price := price, quantity := quantity, filled := 0,
    timestamp := timestamp, side := side }

/-- Order::remaining = quantity - filled (u64 subtraction; Nat truncated here,
the no-underflow condition is proved separately). -/
def Order.remaining (o : Order) : Nat := o.quantity - o.filled

/-- Fill record emitted by the matcher. -/
structure Fill where
  maker_id : Nat
  taker_id : Nat
  price : Nat
  quantity : Nat
deriving DecidableEq, Repr

/-- PriceLevel: one price, a cached total of remaining quantity, and the FIFO
queue of resting orders (VecDeque, push_back / front / pop_front). -/
structure PriceLevel where
  price : Nat
  total_qty : Nat
  orders : List Order
deriving DecidableEq, Repr

/-- PriceLevel::new — empty level at a price. -/
def PriceLevel.new (price : Nat) : PriceLevel :=
  { price := price, total_qty := 0, orders := [] }

/-- PriceLevel::add — push_back the order and add its remaining() to total_qty. -/
def PriceLevel.add (lvl : PriceLevel) (o : Order) : PriceLevel :=
  { lvl with total_qty := lvl.total_qty + o.remaining, orders := lvl.orders ++ [o] }

/-- Sum of remaining() over a list of orders. -/
def sumRemaining (os : List Order) : Nat := (os.map Order.remaining).sum

/-- Sum of the quantities of a list of fills. -/
def sumQty (fs : List Fill) : Nat := (fs.map Fill.quantity).sum

/-- Inner while loop of match_bid / match_ask on the fields of the touched
level: while the incoming order has remaining() > 0 and the queue is
non-empty, take the queue's front order, fill
min(incoming.remaining, maker.remaining), update both filled fields and the
level's cached total quantity tq, emit a Fill at the maker's price, and pop
the maker when it is fully filled.  Returns the updated incoming order, the
updated cached total, the updated queue, and the accumulated fills.  In the
branch where the front maker is not exhausted, fill_qty was the incoming
order's entire remaining quantity (it is the minimum of the two and strictly
below the maker's remaining), so the Rust loop's next guard
order.remaining() > 0 fails and the loop exits with exactly this state; the
translation returns it directly, which keeps the recursion structural. -/
def fillQueueAux (taker : Order) (tq : Nat) (queue : List Order) (fills : List Fill) :
    Order × Nat × List Order × List Fill :=
  match queue with
  | [] => (taker, tq, [], fills)
  | maker :: rest =>
    if taker.remaining = 0 then (taker, tq, maker :: rest, fills)
    else
      let fq := min taker.remaining maker.remaining
      let maker' : Order := { maker with filled := maker.filled + fq }
      let taker' : Order := { taker with filled := taker.filled + fq }
      let f : Fill := { maker_id := maker.id, taker_id := taker.id,
                        price := maker.price, quantity := fq }
      if maker'.remaining = 0 then
        fillQueueAux taker' (tq - fq) rest (fills ++ [f])
      else
        (taker', tq - fq, maker' :: rest, fills ++ [f])

/-- Inner while loop acting on a whole PriceLevel, as the Rust code does
through level.front_mut / level.pop_front / level.total_qty. -/
def fillQueue (taker : Order) (lvl : PriceLevel) (fills : List Fill) :
    Order × PriceLevel × List Fill :=
  let r := fillQueueAux taker lvl.total_qty lvl.orders fills
  (r.1, { lvl with total_qty := r.2.1, orders := r.2.2.1 }, r.2.2.2)

/-- Helper fact used for the termination of the outer loop: when the inner
loop returns with a non-empty queue, the incoming order is fully filled (the
loop can only stop with liquidity left when order.remaining() reached 0). -/
theorem fillQueueAux_nonempty_filled (taker : Order) (tq : Nat) (queue : List Order)
    (fills : List Fill) :
    (fillQueueAux taker tq queue fills).2.2.1 ≠ [] →
      (fillQueueAux taker tq queue fills).1.remaining = 0 := by
  induction taker, tq, queue, fills using fillQueueAux.induct with
  | case1 taker tq fills =>
    intro hne
    simp [fillQueueAux] at hne
  | case2 taker tq fills maker rest hrem =>
    intro _
    simp [fillQueueAux, hrem]
  | case3 taker tq fills maker rest hrem fq maker' taker' f hdone ih =>
    intro hne
    rw [fillQueueAux] at hne ⊢
    simp only [if_neg hrem, if_pos hdone] at hne ⊢
    exact ih hne
  | case4 taker tq fills maker rest hrem fq maker' hdone =>
    intro hne
    rw [fillQueueAux]
    simp only [if_neg hrem, if_neg hdone]
    simp [fq, maker', Order.remaining] at hdone ⊢
    omega

/-- Outer while loop of match_bid / match_ask, parameterised by the
crossability test on the best level's price (for an incoming bid the loop
breaks when the best ask price exceeds order.price; for an incoming ask when
the best bid price is below order.price).  The book is the opposite side as a
list of levels in best-price-first order; the loop consumes levels from the
front, removing a level when its queue empties.  When the inner loop leaves
the touched level non-empty, the incoming order's remaining quantity reached
0 (the inner loop only stops with liquidity left in that case), so the Rust
outer loop's next guard order.remaining() > 0 fails and it exits with the
level still in place; the translation returns that state directly, keeping
the recursion structural over the level list. -/
def matchLoop (crossable : Nat → Bool) (order : Order) (book : List PriceLevel)
    (fills : List Fill) : Order × List PriceLevel × List Fill :=
  if order.remaining = 0 then (order, book, fills)
  else
    match book with
    | [] => (order, [], fills)
    | lvl :: rest =>
      if crossable lvl.price then
        let r := fillQueue order lvl fills
        if r.2.1.orders = [] then
          matchLoop crossable r.1 rest r.2.2
        else
          (r.1, r.2.1 :: rest, r.2.2)
      else
        (order, lvl :: rest, fills)

/-- Insertion of a resting order into a book side, mirroring
BTreeMap entry(price).or_insert_with(PriceLevel::new).add(order) on the
sorted-list representation: find the level with the order's price, or create
a new level at the position given by the side's comparison (before a b means
price a has strictly better priority than price b on this side). -/
def addToBook (before : Nat → Nat → Bool) (o : Order) : List PriceLevel → List PriceLevel
  | [] => [(PriceLevel.new o.price).add o]
  | lvl :: rest =>
    if lvl.price = o.price then lvl.add o :: rest
    else if before o.price lvl.price then (PriceLevel.new o.price).add o :: lvl :: rest
    else lvl :: addToBook before o rest

/-- Matcher state: book sides as best-price-first sorted level lists
(bids descending, asks ascending, matching the BTreeMap iteration order),
the per-call fill buffer, and the statistics counters. -/
structure Matcher where
  bids : List PriceLevel
  asks : List PriceLevel
  fills : List Fill
  orders_processed : Nat
  total_fills : Nat
  total_volume : Nat
deriving DecidableEq, Repr

/-- Matcher::new — empty book, empty fill buffer, zeroed counters. -/
def Matcher.new : Matcher :=
  { bids := [], asks := [], fills := [], orders_processed := 0,
    total_fills := 0, total_volume := 0 }

/-- Matcher::process_order: clear the fill buffer, bump orders_processed, run
match_bid or match_ask by side (the outer loop against the opposite book, then
rest the remainder on one's own side when remaining() > 0).  The per-fill
increments of total_fills and total_volume in the Rust loop body sum, over the
call, to the number of emitted fills and their total quantity. -/
def Matcher.processOrder (m : Matcher) (o : Order) : Matcher :=
  match o.side with
  | Side.bid =>
    let r := matchLoop (fun p => decide (p ≤ o.price)) o m.asks []
    { bids := if 0 < r.1.remaining then addToBook (fun a b => decide (b < a)) r.1 m.bids
              else m.bids,
      asks := r.2.1,
      fills := r.2.2,
      orders_processed := m.orders_processed + 1,
      total_fills := m.total_fills + r.2.2.length,
      total_volume := m.total_volume + sumQty r.2.2 }
  | Side.ask =>
    let r := matchLoop (fun p => decide (o.price ≤ p)) o m.bids []
    { bids := r.2.1,
      asks := if 0 < r.1.remaining then addToBook (fun a b => decide (a < b)) r.1 m.asks
              else m.asks,
      fills := r.2.2,
      orders_processed := m.orders_processed + 1,
      total_fills := m.total_fills + r.2.2.length,
      total_volume := m.total_volume + sumQty r.2.2 }

/-- Matcher::best_bid — price of the first (highest) bid level, if any. -/
def Matcher.best_bid (m : Matcher) : Option Nat := m.bids.head?.map PriceLevel.price

/-- Matcher::best_ask — price of the first (lowest) ask level, if any. -/
def Matcher.best_ask (m : Matcher) : Option Nat := m.asks.head?.map PriceLevel.price

/-- Total quantity cached at the level with the given price, if present. -/
def levelQty (book : List PriceLevel) (p : Nat) : Option Nat :=
  (book.find? (fun l => l.price == p)).map PriceLevel.total_qty

/-! Equation lemmas for the inner loop, in the shape used by later proofs. -/

theorem fillQueueAux_nil (taker : Order) (tq : Nat) (fills : List Fill) :
    fillQueueAux taker tq [] fills = (taker, tq, [], fills) := by
  rw [fillQueueAux]

theorem fillQueueAux_stop (taker : Order) (tq : Nat) (maker : Order) (rest : List Order)
    (fills : List Fill) (hrem : taker.remaining = 0) :
    fillQueueAux taker tq (maker :: rest) fills = (taker, tq, maker :: rest, fills) := by
  rw [fillQueueAux]
  simp [hrem]

theorem fillQueueAux_done (taker : Order) (tq : Nat) (maker : Order) (rest : List Order)
    (fills : List Fill) (hrem : ¬ taker.remaining = 0)
    (hdone : maker.quantity - (maker.filled + min taker.remaining maker.remaining) = 0) :
    fillQueueAux taker tq (maker :: rest) fills =
      fillQueueAux { taker with filled := taker.filled + min taker.remaining maker.remaining }
        (tq - min taker.remaining maker.remaining) rest
        (fills ++ [{ maker_id := maker.id, taker_id := taker.id, price := maker.price,
                     quantity := min taker.remaining maker.remaining }]) := by
  rw [fillQueueAux]
  simp only [if_neg hrem]
  rw [if_pos]
  simpa [Order.remaining] using hdone

theorem fillQueueAux_keep (taker : Order) (tq : Nat) (maker : Order) (rest : List Order)
    (fills : List Fill) (hrem : ¬ taker.remaining = 0)
    (hdone : ¬ maker.quantity - (maker.filled + min taker.remaining maker.remaining) = 0) :
    fillQueueAux taker tq (maker :: rest) fills =
      ({ taker with filled := taker.filled + min taker.remaining maker.remaining },
       tq - min taker.remaining maker.remaining,
       { maker with filled := maker.filled + min taker.remaining maker.remaining } :: rest,
       fills ++ [{ maker_id := maker.id, taker_id := taker.id, price := maker.price,
                   quantity := min taker.remaining maker.remaining }]) := by
  rw [fillQueueAux]
  simp only [if_neg hrem]
  rw [if_neg]
  simpa [Order.remaining] using hdone

/-- Greedy price-time-priority consumption, stated from the spec's matching
rules: walk the priority sequence of resting orders, matching the incoming
order with each in turn for min(incoming.remaining, maker.remaining) at the
maker's price, until the incoming order is exhausted or the sequence ends. -/
def specFills (taker : Order) : List Order → List Fill
  | [] => []
  | maker :: rest =>
    if taker.remaining = 0 then []
    else
      let fq := min taker.remaining maker.remaining
      { maker_id := maker.id, taker_id := taker.id, price := maker.price,
        quantity := fq } ::
        specFills { taker with filled := taker.filled + fq } rest

/-- Queue left behind by the greedy consumption: fully consumed makers are
dropped, a partially consumed maker stays at the front with its filled field updated. -/
def specQueue (taker : Order) : List Order → List Order
  | [] => []
  | maker :: rest =>
    if taker.remaining = 0 then maker :: rest
    else
      let fq := min taker.remaining maker.remaining
      if maker.remaining - fq = 0 then
        specQueue { taker with filled := taker.filled + fq } rest
      else
        { maker with filled := maker.filled + fq } :: rest

theorem sumQty_nil : sumQty [] = 0 := rfl

theorem sumQty_cons (f : Fill) (fs : List Fill) : sumQty (f :: fs) = f.quantity + sumQty fs := by
  simp [sumQty]

theorem sumQty_append (fs gs : List Fill) : sumQty (fs ++ gs) = sumQty fs + sumQty gs := by
  simp [sumQty]

theorem sumRemaining_nil : sumRemaining [] = 0 := rfl

theorem sumRemaining_cons (o : Order) (os : List Order) :
    sumRemaining (o :: os) = o.remaining + sumRemaining os := by
  simp [sumRemaining]

theorem specFills_of_filled (taker : Order) (q : List Order) (h : taker.remaining = 0) :
    specFills taker q = [] := by
  cases q with
  | nil => rfl
  | cons maker rest => simp [specFills, h]

theorem specQueue_of_filled (taker : Order) (q : List Order) (h : taker.remaining = 0) :
    specQueue taker q = q := by
  cases q with
  | nil => rfl
  | cons maker rest => simp [specQueue, h]

theorem remaining_addFilled (o : Order) (n : Nat) :
    ({ o with filled := o.filled + n } : Order).remaining = o.remaining - n := by
  simp only [Order.remaining]
  omega

/-- Main characterisation of the inner loop: its emitted fills are exactly the
greedy consumption specFills of the queue, the incoming order's filled grows
by exactly their total quantity, the cached level total drops by exactly that
total, and the surviving queue is specQueue. -/
theorem fillQueueAux_spec (taker : Order) (tq : Nat) (queue : List Order) (fills : List Fill) :
    (fillQueueAux taker tq queue fills).2.2.2 = fills ++ specFills taker queue ∧
    (fillQueueAux taker tq queue fills).1 =
      { taker with filled := taker.filled + sumQty (specFills taker queue) } ∧
    (fillQueueAux taker tq queue fills).2.1 = tq - sumQty (specFills taker queue) ∧
    (fillQueueAux taker tq queue fills).2.2.1 = specQueue taker queue := by
  induction taker, tq, queue, fills using fillQueueAux.induct with
  | case1 taker tq fills =>
    rw [fillQueueAux_nil]
    simp [specFills, specQueue, sumQty]
  | case2 taker tq fills maker rest hrem =>
    rw [fillQueueAux_stop taker tq maker rest fills hrem]
    simp [specFills, specQueue, hrem, sumQty]
  | case3 taker tq fills maker rest hrem fq maker' taker' f hdone ih =>
    have hdone2 : maker.quantity - (maker.filled + min taker.remaining maker.remaining) = 0 := by
      simpa [Order.remaining] using hdone
    rw [fillQueueAux_done taker tq maker rest fills hrem hdone2]
    have hfq : maker.remaining - min taker.remaining maker.remaining = 0 := by
      simp only [Order.remaining] at *
      omega
    obtain ⟨ih1, ih2, ih3, ih4⟩ := ih
    refine ⟨?_, ?_, ?_, ?_⟩
    · rw [ih1]
      simp [specFills, hrem, sumQty_append, List.append_assoc]
    · rw [ih2]
      simp [specFills, hrem, sumQty_cons, Nat.add_assoc]
    · rw [ih3]
      simp [specFills, hrem, sumQty_cons, Nat.sub_sub]
    · rw [ih4]
      simp [specQueue, hrem, hfq]
  | case4 taker tq fills maker rest hrem fq maker' hdone =>
    have hdone2 : ¬ maker.quantity - (maker.filled + min taker.remaining maker.remaining) = 0 := by
      simpa [fq, maker', Order.remaining] using hdone
    rw [fillQueueAux_keep taker tq maker rest fills hrem hdone2]
    have hfq : ¬ maker.remaining - min taker.remaining maker.remaining = 0 := by
      simp only [Order.remaining] at hdone2 ⊢
      omega
    have ht' : ({ taker with filled := taker.filled + min taker.remaining maker.remaining } :
        Order).remaining = 0 := by
      rw [remaining_addFilled]
      simp only [Order.remaining] at hdone2 hrem ⊢
      omega
    refine ⟨?_, ?_, ?_, ?_⟩
    · simp only [specFills, if_neg hrem]
      rw [specFills_of_filled _ _ ht']
    · simp only [specFills, if_neg hrem]
      rw [specFills_of_filled _ _ ht']
      simp [sumQty_cons, sumQty_nil]
    · simp only [specFills, if_neg hrem]
      rw [specFills_of_filled _ _ ht']
      simp [sumQty_cons, sumQty_nil]
    · simp only [specQueue, if_neg hrem, if_neg hfq]

/-- Conservation at queue level: original resting quantity splits into
surviving resting quantity plus matched quantity. -/
theorem specQueue_conservation (q : List Order) (t : Order) :
    sumRemaining q = sumRemaining (specQueue t q) + sumQty (specFills t q) := by
  induction q generalizing t with
  | nil => simp [specQueue, specFills, sumRemaining, sumQty]
  | cons maker rest ih =>
    by_cases hrem : t.remaining = 0
    · simp [specQueue, specFills, hrem, sumQty]
    · by_cases hdone : maker.remaining - min t.remaining maker.remaining = 0
      · rw [sumRemaining_cons]
        simp only [specQueue, specFills, if_neg hrem, if_pos hdone]
        rw [ih { t with filled := t.filled + min t.remaining maker.remaining }, sumQty_cons]
        have hle : min t.remaining maker.remaining ≤ maker.remaining := Nat.min_le_right _ _
        dsimp only
        omega
      · rw [sumRemaining_cons]
        simp only [specQueue, specFills, if_neg hrem, if_neg hdone]
        have ht' : ({ t with filled := t.filled + min t.remaining maker.remaining } : Order).remaining = 0 := by
          rw [remaining_addFilled]
          omega
        rw [specFills_of_filled _ _ ht', sumRemaining_cons, remaining_addFilled, sumQty_cons]
        simp only [sumQty_nil]
        have : min t.remaining maker.remaining ≤ maker.remaining := Nat.min_le_right _ _
        omega

/-- Every order surviving in the queue descends from an original queue order
with the same identity fields and a filled field that has only grown. -/
theorem specQueue_origin (q : List Order) (t : Order) :
    ∀ o2 ∈ specQueue t q, ∃ o1 ∈ q, o2.id = o1.id ∧ o2.price = o1.price ∧
      o2.quantity = o1.quantity ∧ o2.timestamp = o1.timestamp ∧ o1.filled ≤ o2.filled := by
  induction q generalizing t with
  | nil => simp [specQueue]
  | cons maker rest ih =>
    by_cases hrem : t.remaining = 0
    · intro o2 h2
      simp only [specQueue, if_pos hrem] at h2
      exact ⟨o2, h2, rfl, rfl, rfl, rfl, Nat.le_refl _⟩
    · by_cases hdone : maker.remaining - min t.remaining maker.remaining = 0
      · intro o2 h2
        simp only [specQueue, if_neg hrem, if_pos hdone] at h2
        obtain ⟨o1, h1, he⟩ := ih _ o2 h2
        exact ⟨o1, List.mem_cons_of_mem _ h1, he⟩
      · intro o2 h2
        simp only [specQueue, if_neg hrem, if_neg hdone, List.mem_cons] at h2
        rcases h2 with h2 | h2
        · exact ⟨maker, List.mem_cons_self _ _, by simp [h2], by simp [h2], by simp [h2],
            by simp [h2], by simp [h2]⟩
        · exact ⟨o2, List.mem_cons_of_mem _ h2, rfl, rfl, rfl, rfl, Nat.le_refl _⟩

/-- Orders surviving in the queue keep a positive remaining quantity. -/
theorem specQueue_pos (q : List Order) (t : Order) (h : ∀ o ∈ q, 0 < o.remaining) :
    ∀ o2 ∈ specQueue t q, 0 < o2.remaining := by
  induction q generalizing t with
  | nil => simp [specQueue]
  | cons maker rest ih =>
    by_cases hrem : t.remaining = 0
    · intro o2 h2
      simp only [specQueue, if_pos hrem] at h2
      exact h o2 h2
    · by_cases hdone : maker.remaining - min t.remaining maker.remaining = 0
      · intro o2 h2
        simp only [specQueue, if_neg hrem, if_pos hdone] at h2
        exact ih _ (fun o ho => h o (List.mem_cons_of_mem _ ho)) o2 h2
      · intro o2 h2
        simp only [specQueue, if_neg hrem, if_neg hdone, List.mem_cons] at h2
        rcases h2 with h2 | h2
        · rw [h2, remaining_addFilled]
          omega
        · exact h o2 (List.mem_cons_of_mem _ h2)

/-- Greedy matching over an appended priority sequence decomposes into the
first part followed by the second with the taker advanced accordingly. -/
theorem specFills_append (q1 q2 : List Order) (t : Order) :
    specFills t (q1 ++ q2) =
      specFills t q1 ++
        specFills { t with filled := t.filled + sumQty (specFills t q1) } q2 := by
  induction q1 generalizing t with
  | nil =>
    simp only [List.nil_append, specFills, sumQty_nil, Nat.add_zero]
  | cons maker rest ih =>
    by_cases hrem : t.remaining = 0
    · rw [specFills_of_filled _ _ hrem, specFills_of_filled _ _ hrem]
      rw [specFills_of_filled _ _ (by rw [remaining_addFilled]; omega)]
      simp
    · simp only [List.cons_append, specFills, if_neg hrem, sumQty_cons, List.append_eq]
      rw [ih { t with filled := t.filled + min t.remaining maker.remaining }]
      simp [Nat.add_assoc]

/-- Under the level invariant (every resting order has positive remaining),
every greedy fill has positive quantity. -/
theorem specFills_pos (q : List Order) (t : Order) (h : ∀ o ∈ q, 0 < o.remaining) :
    ∀ f ∈ specFills t q, 0 < f.quantity := by
  induction q generalizing t with
  | nil => simp [specFills]
  | cons maker rest ih =>
    by_cases hrem : t.remaining = 0
    · rw [specFills_of_filled _ _ hrem]
      simp
    · intro f hf
      simp only [specFills, if_neg hrem, List.mem_cons] at hf
      rcases hf with hf | hf
      · rw [hf]
        have h1 := h maker (List.mem_cons_self _ _)
        dsimp only
        omega
      · exact ih _ (fun o ho => h o (List.mem_cons_of_mem _ ho)) f hf

/-- Every greedy fill names the incoming order as taker. -/
theorem specFills_taker (q : List Order) (t : Order) :
    ∀ f ∈ specFills t q, f.taker_id = t.id := by
  induction q generalizing t with
  | nil => simp [specFills]
  | cons maker rest ih =>
    by_cases hrem : t.remaining = 0
    · rw [specFills_of_filled _ _ hrem]
      simp
    · intro f hf
      simp only [specFills, if_neg hrem, List.mem_cons] at hf
      rcases hf with hf | hf
      · rw [hf]
      · have h2 := ih { t with filled := t.filled + min t.remaining maker.remaining } f hf
        simpa using h2

/-- Indexed description of the greedy fills: the k-th fill matches the k-th
order of the priority sequence, at its price, for the minimum of the taker's
remaining quantity at that moment and the maker's remaining quantity. -/
theorem specFills_get (q : List Order) (t : Order) (k : Nat) (f : Fill)
    (hf : (specFills t q)[k]? = some f) :
    ∃ m : Order, q[k]? = some m ∧ f.maker_id = m.id ∧ f.price = m.price ∧
      f.quantity = min (t.remaining - sumQty ((specFills t q).take k)) m.remaining := by
  induction q generalizing t k with
  | nil => simp [specFills] at hf
  | cons maker rest ih =>
    by_cases hrem : t.remaining = 0
    · rw [specFills_of_filled _ _ hrem] at hf
      simp at hf
    · cases k with
      | zero =>
        simp only [specFills, if_neg hrem, List.getElem?_cons_zero, Option.some.injEq] at hf
        refine ⟨maker, by simp, ?_, ?_, ?_⟩
        · rw [← hf]
        · rw [← hf]
        · rw [← hf]
          simp [specFills, if_neg hrem, sumQty_nil]
      | succ k =>
        simp only [specFills, if_neg hrem, List.getElem?_cons_succ] at hf
        obtain ⟨m, hm, h1, h2, h3⟩ := ih _ k hf
        refine ⟨m, by simpa using hm, h1, h2, ?_⟩
        rw [h3, remaining_addFilled]
        simp only [specFills, if_neg hrem, List.take_succ_cons, sumQty_cons]
        congr 1
        omega

/-- Resting orders of the crossable prefix of the book (the levels the
matching loop actually visits), best price first, FIFO within a level. -/
def crossTW (crossable : Nat → Bool) (book : List PriceLevel) : List Order :=
  (book.takeWhile (fun l => crossable l.price)).flatMap PriceLevel.orders

/-- Priority sequence as the spec words it: the resting orders of all
crossable levels of the side, in best-price-first book order, FIFO within
each level. -/
def priorityOrders (crossable : Nat → Bool) (book : List PriceLevel) : List Order :=
  (book.filter (fun l => crossable l.price)).flatMap PriceLevel.orders

/-- Total remaining resting quantity of a book side. -/
def bookRemaining (book : List PriceLevel) : Nat :=
  (book.map (fun l => sumRemaining l.orders)).sum

theorem setFilled_self (o : Order) : ({ o with filled := o.filled } : Order) = o := rfl

/-- The inner loop in closed form, by fillQueueAux_spec. -/
theorem fillQueue_spec (taker : Order) (lvl : PriceLevel) (fills : List Fill) :
    fillQueue taker lvl fills =
      ({ taker with filled := taker.filled + sumQty (specFills taker lvl.orders) },
       { lvl with total_qty := lvl.total_qty - sumQty (specFills taker lvl.orders),
                  orders := specQueue taker lvl.orders },
       fills ++ specFills taker lvl.orders) := by
  obtain ⟨h1, h2, h3, h4⟩ := fillQueueAux_spec taker lvl.total_qty lvl.orders fills
  simp only [fillQueue]
  rw [h1, h2, h3, h4]

/-! Equation lemmas for the outer loop. -/

theorem matchLoop_stop (crossable : Nat → Bool) (order : Order) (book : List PriceLevel)
    (fills : List Fill) (h : order.remaining = 0) :
    matchLoop crossable order book fills = (order, book, fills) := by
  rw [matchLoop.eq_def]
  simp [h]

theorem matchLoop_nil (crossable : Nat → Bool) (order : Order) (fills : List Fill) :
    matchLoop crossable order [] fills = (order, [], fills) := by
  rw [matchLoop.eq_def]
  simp

theorem matchLoop_break (crossable : Nat → Bool) (order : Order) (lvl : PriceLevel)
    (rest : List PriceLevel) (fills : List Fill) (h : ¬ order.remaining = 0)
    (hc : ¬ crossable lvl.price = true) :
    matchLoop crossable order (lvl :: rest) fills = (order, lvl :: rest, fills) := by
  rw [matchLoop.eq_def]
  simp [h, hc]

theorem matchLoop_removed (crossable : Nat → Bool) (order : Order) (lvl : PriceLevel)
    (rest : List PriceLevel) (fills : List Fill) (h : ¬ order.remaining = 0)
    (hc : crossable lvl.price = true)
    (hemp : (fillQueue order lvl fills).2.1.orders = []) :
    matchLoop crossable order (lvl :: rest) fills =
      matchLoop crossable (fillQueue order lvl fills).1 rest (fillQueue order lvl fills).2.2 := by
  conv in matchLoop crossable order (lvl :: rest) fills => rw [matchLoop.eq_def]
  simp [h, hc, hemp]

theorem matchLoop_kept (crossable : Nat → Bool) (order : Order) (lvl : PriceLevel)
    (rest : List PriceLevel) (fills : List Fill) (h : ¬ order.remaining = 0)
    (hc : crossable lvl.price = true)
    (hemp : ¬ (fillQueue order lvl fills).2.1.orders = []) :
    matchLoop crossable order (lvl :: rest) fills =
      ((fillQueue order lvl fills).1, (fillQueue order lvl fills).2.1 :: rest,
       (fillQueue order lvl fills).2.2) := by
  conv in matchLoop crossable order (lvl :: rest) fills => rw [matchLoop.eq_def]
  simp [h, hc, hemp]

theorem crossTW_cons_pos (crossable : Nat → Bool) (lvl : PriceLevel)
    (rest : List PriceLevel) (hc : crossable lvl.price = true) :
    crossTW crossable (lvl :: rest) = lvl.orders ++ crossTW crossable rest := by
  simp [crossTW, List.takeWhile_cons, hc]

theorem crossTW_cons_neg (crossable : Nat → Bool) (lvl : PriceLevel)
    (rest : List PriceLevel) (hc : ¬ crossable lvl.price = true) :
    crossTW crossable (lvl :: rest) = [] := by
  simp [crossTW, List.takeWhile_cons, hc]

/-- Main characterisation of the outer loop: the emitted fills are the greedy
consumption of the visited (crossable-prefix) priority sequence, and the
incoming order's filled field grows by exactly their total quantity. -/
theorem matchLoop_spec (crossable : Nat → Bool) (order : Order) (book : List PriceLevel)
    (fills : List Fill) :
    (matchLoop crossable order book fills).2.2 =
      fills ++ specFills order (crossTW crossable book) ∧
    (matchLoop crossable order book fills).1 =
      { order with filled := order.filled + sumQty (specFills order (crossTW crossable book)) } := by
  induction order, book, fills using matchLoop.induct crossable with
  | case1 book order fills h =>
    rw [matchLoop_stop crossable order book fills h, specFills_of_filled _ _ h]
    simp [sumQty_nil, setFilled_self]
  | case2 order fills h =>
    rw [matchLoop_nil]
    simp [crossTW, specFills, sumQty_nil, setFilled_self]
  | case3 order fills h lvl rest hc r hemp ih =>
    rw [matchLoop_removed crossable order lvl rest fills h hc hemp]
    obtain ⟨ih1, ih2⟩ := ih
    unfold r at ih1 ih2
    rw [crossTW_cons_pos crossable lvl rest hc, specFills_append]
    rw [fillQueue_spec] at ih1 ih2 ⊢
    dsimp only at ih1 ih2 ⊢
    refine ⟨?_, ?_⟩
    · rw [ih1, List.append_assoc]
    · rw [ih2, sumQty_append, Nat.add_assoc]
  | case4 order fills h lvl rest hc r hemp =>
    have hr0 : (fillQueue order lvl fills).1.remaining = 0 := by
      have h2 := fillQueueAux_nonempty_filled order lvl.total_qty lvl.orders fills
      unfold r at hemp
      simp only [fillQueue] at hemp ⊢
      exact h2 hemp
    rw [matchLoop_kept crossable order lvl rest fills h hc hemp]
    rw [crossTW_cons_pos crossable lvl rest hc, specFills_append]
    have hfr : specFills (fillQueue order lvl fills).1 (crossTW crossable rest) = [] :=
      specFills_of_filled _ _ hr0
    rw [fillQueue_spec] at hfr ⊢
    dsimp only at hfr ⊢
    refine ⟨?_, ?_⟩
    · rw [hfr, List.append_nil]
    · rw [hfr, sumQty_append, sumQty_nil, Nat.add_zero]
  | case5 order fills h lvl rest hc =>
    rw [matchLoop_break crossable order lvl rest fills h hc,
      crossTW_cons_neg crossable lvl rest hc]
    simp [specFills, sumQty_nil, setFilled_self]

/-- Well-formedness of a price level: non-empty FIFO queue, every order at
the level's price with positive remaining quantity, and a correct cached
total. -/
def levelWF (lvl : PriceLevel) : Prop :=
  lvl.orders ≠ [] ∧ (∀ o ∈ lvl.orders, o.price = lvl.price ∧ 0 < o.remaining) ∧
  lvl.total_qty = sumRemaining lvl.orders

instance (lvl : PriceLevel) : Decidable (levelWF lvl) := by
  unfold levelWF
  infer_instance

/-- Every level surviving the matching loop descends from a book level of the
same price, and each of its orders descends from that level's orders with the
same identity fields and a filled field that has only grown. -/
theorem matchLoop_book_origin (crossable : Nat → Bool) (order : Order)
    (book : List PriceLevel) (fills : List Fill) :
    ∀ l2 ∈ (matchLoop crossable order book fills).2.1, ∃ l1 ∈ book, l2.price = l1.price ∧
      ∀ o2 ∈ l2.orders, ∃ o1 ∈ l1.orders, o2.id = o1.id ∧ o2.price = o1.price ∧
        o2.quantity = o1.quantity ∧ o2.timestamp = o1.timestamp ∧ o1.filled ≤ o2.filled := by
  induction order, book, fills using matchLoop.induct crossable with
  | case1 book order fills h =>
    rw [matchLoop_stop crossable order book fills h]
    intro l2 h2
    exact ⟨l2, h2, rfl, fun o2 ho => ⟨o2, ho, rfl, rfl, rfl, rfl, Nat.le_refl _⟩⟩
  | case2 order fills h =>
    rw [matchLoop_nil]
    simp
  | case3 order fills h lvl rest hc r hemp ih =>
    rw [matchLoop_removed crossable order lvl rest fills h hc hemp]
    intro l2 h2
    obtain ⟨l1, h1, he⟩ := ih l2 h2
    exact ⟨l1, List.mem_cons_of_mem _ h1, he⟩
  | case4 order fills h lvl rest hc r hemp =>
    rw [matchLoop_kept crossable order lvl rest fills h hc hemp]
    intro l2 h2
    dsimp only at h2
    rcases List.mem_cons.mp h2 with h2 | h2
    · refine ⟨lvl, List.mem_cons_self _ _, ?_, ?_⟩
      · rw [h2, fillQueue_spec]
      · intro o2 ho2
        rw [h2, fillQueue_spec] at ho2
        dsimp only at ho2
        exact specQueue_origin lvl.orders order o2 ho2
    · exact ⟨l2, List.mem_cons_of_mem _ h2, rfl,
        fun o2 ho => ⟨o2, ho, rfl, rfl, rfl, rfl, Nat.le_refl _⟩⟩
  | case5 order fills h lvl rest hc =>
    rw [matchLoop_break crossable order lvl rest fills h hc]
    intro l2 h2
    exact ⟨l2, h2, rfl, fun o2 ho => ⟨o2, ho, rfl, rfl, rfl, rfl, Nat.le_refl _⟩⟩

/-- The matching loop preserves well-formedness of all book levels. -/
theorem matchLoop_book_wf (crossable : Nat → Bool) (order : Order)
    (book : List PriceLevel) (fills : List Fill) (hwf : ∀ l ∈ book, levelWF l) :
    ∀ l2 ∈ (matchLoop crossable order book fills).2.1, levelWF l2 := by
  induction order, book, fills using matchLoop.induct crossable with
  | case1 book order fills h =>
    rw [matchLoop_stop crossable order book fills h]
    exact hwf
  | case2 order fills h =>
    rw [matchLoop_nil]
    simp
  | case3 order fills h lvl rest hc r hemp ih =>
    rw [matchLoop_removed crossable order lvl rest fills h hc hemp]
    exact ih (fun l hl => hwf l (List.mem_cons_of_mem _ hl))
  | case4 order fills h lvl rest hc r hemp =>
    rw [matchLoop_kept crossable order lvl rest fills h hc hemp]
    have hlvl := hwf lvl (List.mem_cons_self _ _)
    obtain ⟨hne, hords, htq⟩ := hlvl
    have hwf2 : levelWF (fillQueue order lvl fills).2.1 := by
      rw [fillQueue_spec]
      refine ⟨?_, ?_, ?_⟩
      · have h2 := hemp
        unfold r at h2
        rw [fillQueue_spec] at h2
        exact h2
      · intro o2 ho2
        dsimp only at ho2 ⊢
        obtain ⟨o1, ho1, f1, f2, f3, f4, f5⟩ := specQueue_origin lvl.orders order o2 ho2
        refine ⟨f2.trans (hords o1 ho1).1, ?_⟩
        exact specQueue_pos lvl.orders order (fun o ho => (hords o ho).2) o2 ho2
      · dsimp only
        rw [htq, specQueue_conservation lvl.orders order]
        omega
    intro l2 h2
    dsimp only at h2
    rcases List.mem_cons.mp h2 with h2 | h2
    · rw [h2]
      exact hwf2
    · exact hwf l2 (List.mem_cons_of_mem _ h2)
  | case5 order fills h lvl rest hc =>
    rw [matchLoop_break crossable order lvl rest fills h hc]
    exact hwf

/-- The matching loop preserves any pairwise price relation on the book
(in particular its best-price-first sortedness). -/
theorem matchLoop_book_pairwise (crossable : Nat → Bool) (R : Nat → Nat → Prop)
    (order : Order) (book : List PriceLevel) (fills : List Fill)
    (hs : book.Pairwise (fun a b => R a.price b.price)) :
    ((matchLoop crossable order book fills).2.1).Pairwise (fun a b => R a.price b.price) := by
  induction order, book, fills using matchLoop.induct crossable with
  | case1 book order fills h =>
    rw [matchLoop_stop crossable order book fills h]
    exact hs
  | case2 order fills h =>
    rw [matchLoop_nil]
    simp
  | case3 order fills h lvl rest hc r hemp ih =>
    rw [matchLoop_removed crossable order lvl rest fills h hc hemp]
    exact ih (List.Pairwise.of_cons hs)
  | case4 order fills h lvl rest hc r hemp =>
    rw [matchLoop_kept crossable order lvl rest fills h hc hemp]
    dsimp only
    rw [List.pairwise_cons] at hs ⊢
    refine ⟨?_, hs.2⟩
    intro b hb
    have hp : (fillQueue order lvl fills).2.1.price = lvl.price := by
      rw [fillQueue_spec]
    rw [hp]
    exact hs.1 b hb
  | case5 order fills h lvl rest hc =>
    rw [matchLoop_break crossable order lvl rest fills h hc]
    exact hs

/-- When the incoming order is left with positive remaining quantity, the
surviving best level of the walked side (if any) is not crossable. -/
theorem matchLoop_head_uncrossable (crossable : Nat → Bool) (order : Order)
    (book : List PriceLevel) (fills : List Fill)
    (hrem : 0 < (matchLoop crossable order book fills).1.remaining) :
    ∀ l ∈ ((matchLoop crossable order book fills).2.1).head?, crossable l.price = false := by
  induction order, book, fills using matchLoop.induct crossable with
  | case1 book order fills h =>
    rw [matchLoop_stop crossable order book fills h] at hrem ⊢
    dsimp only at hrem
    omega
  | case2 order fills h =>
    rw [matchLoop_nil]
    simp
  | case3 order fills h lvl rest hc r hemp ih =>
    rw [matchLoop_removed crossable order lvl rest fills h hc hemp] at hrem ⊢
    exact ih hrem
  | case4 order fills h lvl rest hc r hemp =>
    rw [matchLoop_kept crossable order lvl rest fills h hc hemp] at hrem ⊢
    have hr0 : (fillQueue order lvl fills).1.remaining = 0 := by
      have h2 := fillQueueAux_nonempty_filled order lvl.total_qty lvl.orders fills
      unfold r at hemp
      simp only [fillQueue] at hemp ⊢
      exact h2 hemp
    dsimp only at hrem
    omega
  | case5 order fills h lvl rest hc =>
    rw [matchLoop_break crossable order lvl rest fills h hc]
    intro l hl
    simp only [List.head?_cons, Option.mem_def, Option.some.injEq] at hl
    rw [← hl]
    exact Bool.not_eq_true _ |>.mp hc

/-- Book-plus-fills conservation through the matching loop: resting quantity
leaves the walked side exactly through emitted fills. -/
theorem matchLoop_conservation (crossable : Nat → Bool) (order : Order)
    (book : List PriceLevel) (fills : List Fill) :
    bookRemaining book + sumQty fills =
      bookRemaining (matchLoop crossable order book fills).2.1 +
        sumQty (matchLoop crossable order book fills).2.2 := by
  induction order, book, fills using matchLoop.induct crossable with
  | case1 book order fills h =>
    rw [matchLoop_stop crossable order book fills h]
  | case2 order fills h =>
    rw [matchLoop_nil]
  | case3 order fills h lvl rest hc r hemp ih =>
    rw [matchLoop_removed crossable order lvl rest fills h hc hemp]
    have hcons := specQueue_conservation lvl.orders order
    have hq0 : specQueue order lvl.orders = [] := by
      have h2 := hemp
      unfold r at h2
      rw [fillQueue_spec] at h2
      exact h2
    rw [hq0, sumRemaining_nil] at hcons
    unfold r at ih
    rw [← ih]
    rw [fillQueue_spec]
    dsimp only
    simp only [bookRemaining, List.map_cons, List.sum_cons, sumQty_append]
    omega
  | case4 order fills h lvl rest hc r hemp =>
    rw [matchLoop_kept crossable order lvl rest fills h hc hemp]
    have hcons := specQueue_conservation lvl.orders order
    rw [fillQueue_spec]
    dsimp only
    simp only [bookRemaining, List.map_cons, List.sum_cons, sumQty_append]
    omega
  | case5 order fills h lvl rest hc =>
    rw [matchLoop_break crossable order lvl rest fills h hc]

theorem sumRemaining_append (os ps : List Order) :
    sumRemaining (os ++ ps) = sumRemaining os + sumRemaining ps := by
  simp [sumRemaining]

/-- Resting an order via entry-or-create touches exactly one level: every
level of the result is an untouched original, an original of the order's
price with the order appended, or a fresh level holding only the order. -/
theorem addToBook_mem (before : Nat → Nat → Bool) (o : Order) (book : List PriceLevel) :
    ∀ l2 ∈ addToBook before o book,
      l2 ∈ book ∨ (∃ l1 ∈ book, l1.price = o.price ∧ l2 = l1.add o) ∨
        l2 = (PriceLevel.new o.price).add o := by
  induction book with
  | nil =>
    intro l2 h2
    simp only [addToBook, List.mem_singleton] at h2
    exact Or.inr (Or.inr h2)
  | cons lvl rest ih =>
    intro l2 h2
    by_cases he : lvl.price = o.price
    · simp only [addToBook, if_pos he, List.mem_cons] at h2
      rcases h2 with h2 | h2
      · exact Or.inr (Or.inl ⟨lvl, List.mem_cons_self _ _, he, h2⟩)
      · exact Or.inl (List.mem_cons_of_mem _ h2)
    · by_cases hb : before o.price lvl.price
      · simp only [addToBook, if_neg he, if_pos hb, List.mem_cons] at h2
        rcases h2 with h2 | h2 | h2
        · exact Or.inr (Or.inr h2)
        · exact Or.inl (by rw [h2]; exact List.mem_cons_self _ _)
        · exact Or.inl (List.mem_cons_of_mem _ h2)
      · simp only [addToBook, if_neg he, if_neg hb, List.mem_cons] at h2
        rcases h2 with h2 | h2
        · exact Or.inl (by rw [h2]; exact List.mem_cons_self _ _)
        · rcases ih l2 h2 with h3 | ⟨l1, h3, h4, h5⟩ | h3
          · exact Or.inl (List.mem_cons_of_mem _ h3)
          · exact Or.inr (Or.inl ⟨l1, List.mem_cons_of_mem _ h3, h4, h5⟩)
          · exact Or.inr (Or.inr h3)

/-- Prices present after resting an order: the order's own price or an
original level price. -/
theorem addToBook_price (before : Nat → Nat → Bool) (o : Order) (book : List PriceLevel) :
    ∀ l2 ∈ addToBook before o book, l2.price = o.price ∨ ∃ l1 ∈ book, l2.price = l1.price := by
  intro l2 h2
  rcases addToBook_mem before o book l2 h2 with h3 | ⟨l1, h3, h4, h5⟩ | h3
  · exact Or.inr ⟨l2, h3, rfl⟩
  · rw [h5]
    exact Or.inl (by simp [PriceLevel.add, h4])
  · rw [h3]
    exact Or.inl rfl

/-- Resting an order with positive remaining preserves level well-formedness. -/
theorem addToBook_wf (before : Nat → Nat → Bool) (o : Order) (book : List PriceLevel)
    (hwf : ∀ l ∈ book, levelWF l) (ho : 0 < o.remaining) :
    ∀ l2 ∈ addToBook before o book, levelWF l2 := by
  intro l2 h2
  rcases addToBook_mem before o book l2 h2 with h3 | ⟨l1, h3, h4, h5⟩ | h3
  · exact hwf l2 h3
  · obtain ⟨hne, hords, htq⟩ := hwf l1 h3
    rw [h5]
    refine ⟨by simp [PriceLevel.add], ?_, ?_⟩
    · intro o2 ho2
      simp only [PriceLevel.add, List.mem_append, List.mem_singleton] at ho2
      rcases ho2 with ho2 | ho2
      · exact (hords o2 ho2)
      · rw [ho2]
        exact ⟨h4.symm, ho⟩
    · simp [PriceLevel.add, sumRemaining_append, htq, sumRemaining_cons, sumRemaining_nil]
  · rw [h3]
    refine ⟨by simp [PriceLevel.add, PriceLevel.new], ?_, ?_⟩
    · intro o2 ho2
      simp only [PriceLevel.add, PriceLevel.new, List.nil_append, List.mem_singleton] at ho2
      rw [ho2]
      exact ⟨rfl, ho⟩
    · simp [PriceLevel.add, PriceLevel.new, sumRemaining_cons, sumRemaining_nil]

/-- Insertion preserves strict sortedness of the book, for any strict total
ordering R realised by the side's Bool comparator. -/
theorem addToBook_pairwise (before : Nat → Nat → Bool) (R : Nat → Nat → Prop)
    (hlink : ∀ a b : Nat, before a b = true ↔ R a b)
    (htot : ∀ a b : Nat, ¬ a = b → ¬ R a b → R b a)
    (htrans : ∀ a b c : Nat, R a b → R b c → R a c)
    (o : Order) (book : List PriceLevel)
    (hs : book.Pairwise (fun l1 l2 => R l1.price l2.price)) :
    (addToBook before o book).Pairwise (fun l1 l2 => R l1.price l2.price) := by
  induction book with
  | nil => simp [addToBook]
  | cons lvl rest ih =>
    rw [List.pairwise_cons] at hs
    by_cases he : lvl.price = o.price
    · simp only [addToBook, if_pos he]
      rw [List.pairwise_cons]
      refine ⟨?_, hs.2⟩
      intro b hb
      have : (lvl.add o).price = lvl.price := rfl
      rw [this]
      exact hs.1 b hb
    · by_cases hb : before o.price lvl.price = true
      · simp only [addToBook, if_neg he, if_pos hb]
        rw [List.pairwise_cons]
        refine ⟨?_, List.pairwise_cons.mpr hs⟩
        intro b hbm
        have hp : ((PriceLevel.new o.price).add o).price = o.price := rfl
        rw [hp]
        rcases List.mem_cons.mp hbm with h2 | h2
        · rw [h2]
          exact (hlink _ _).mp hb
        · exact htrans o.price lvl.price b.price ((hlink _ _).mp hb) (hs.1 b h2)
      · simp only [addToBook, if_neg he, if_neg hb]
        rw [List.pairwise_cons]
        refine ⟨?_, ih hs.2⟩
        intro b hbm
        rcases addToBook_price before o rest b hbm with h2 | ⟨l1, h3, h4⟩
        · rw [h2]
          exact htot o.price lvl.price (fun h => he h.symm) (fun hr => hb ((hlink _ _).mpr hr))
        · rw [h4]
          exact hs.1 l1 h3

theorem head_price_min (book : List PriceLevel)
    (hs : book.Pairwise (fun a b => a.price < b.price)) (h : PriceLevel)
    (hh : book.head? = some h) : ∀ l ∈ book, h.price ≤ l.price := by
  cases book with
  | nil => simp at hh
  | cons hd t =>
    simp only [List.head?_cons, Option.some.injEq] at hh
    rw [List.pairwise_cons] at hs
    intro l hl
    rcases List.mem_cons.mp hl with h2 | h2
    · rw [← hh, h2]
    · rw [← hh]
      exact Nat.le_of_lt (hs.1 l h2)

theorem head_price_max (book : List PriceLevel)
    (hs : book.Pairwise (fun a b => b.price < a.price)) (h : PriceLevel)
    (hh : book.head? = some h) : ∀ l ∈ book, l.price ≤ h.price := by
  cases book with
  | nil => simp at hh
  | cons hd t =>
    simp only [List.head?_cons, Option.some.injEq] at hh
    rw [List.pairwise_cons] at hs
    intro l hl
    rcases List.mem_cons.mp hl with h2 | h2
    · rw [← hh, h2]
    · rw [← hh]
      exact Nat.le_of_lt (hs.1 l h2)

/-- All resting orders of a book side, best level first, FIFO within level. -/
def bookOrders (book : List PriceLevel) : List Order := book.flatMap PriceLevel.orders

/-- All resting orders of the matcher. -/
def allOrders (m : Matcher) : List Order := bookOrders m.bids ++ bookOrders m.asks

/-- Ids of all resting orders of the matcher. -/
def bookIds (m : Matcher) : List Nat := (allOrders m).map Order.id

/-- Global well-formedness of the matcher: both sides sorted best-price-first
(bids descending, asks ascending), every level well-formed, and the book not
crossed (best bid strictly below best ask when both exist). -/
def MatcherWF (m : Matcher) : Prop :=
  m.asks.Pairwise (fun a b => a.price < b.price) ∧
  m.bids.Pairwise (fun a b => b.price < a.price) ∧
  (∀ l ∈ m.asks, levelWF l) ∧ (∀ l ∈ m.bids, levelWF l) ∧
  (∀ lb ∈ m.bids.head?, ∀ la ∈ m.asks.head?, lb.price < la.price)

instance (m : Matcher) : Decidable (MatcherWF m) := by
  unfold MatcherWF
  infer_instance

/-- Matcher states reachable from the empty matcher by submissions that
satisfy the documented preconditions (positive quantity, zero filled, id not
currently resting in the book). -/
inductive Reachable : Matcher → Prop where
  | base : Reachable Matcher.new
  | step (m : Matcher) (o : Order) : Reachable m → 0 < o.quantity → o.filled = 0 →
      o.id ∉ bookIds m → Reachable (m.processOrder o)

/-- Every submission preserves global well-formedness of the matcher. -/
theorem processOrder_wf (m : Matcher) (o : Order) (hwf : MatcherWF m) :
    MatcherWF (m.processOrder o) := by
  obtain ⟨hsa, hsb, hwa, hwb, hx⟩ := hwf
  cases ho : o.side with
  | bid =>
    simp only [Matcher.processOrder, ho]
    refine ⟨?_, ?_, ?_, ?_, ?_⟩
    · exact matchLoop_book_pairwise _ (fun a b => a < b) o m.asks [] hsa
    · by_cases hres : 0 < (matchLoop (fun p => decide (p ≤ o.price)) o m.asks []).1.remaining
      · simp only [if_pos hres]
        refine addToBook_pairwise _ (fun a b => b < a) ?_ ?_ ?_ _ m.bids hsb
        · intro a b
          simp
        · intro a b h1 h2
          omega
        · intro a b c h1 h2
          omega
      · simp only [if_neg hres]
        exact hsb
    · exact matchLoop_book_wf _ o m.asks [] hwa
    · by_cases hres : 0 < (matchLoop (fun p => decide (p ≤ o.price)) o m.asks []).1.remaining
      · simp only [if_pos hres]
        exact addToBook_wf _ _ m.bids hwb hres
      · simp only [if_neg hres]
        exact hwb
    · intro lb2 hlb2 la2 hla2
      have hla2m : la2 ∈ (matchLoop (fun p => decide (p ≤ o.price)) o m.asks []).2.1 :=
        List.mem_of_mem_head? hla2
      obtain ⟨la1, hla1, hpeq, _⟩ :=
        matchLoop_book_origin (fun p => decide (p ≤ o.price)) o m.asks [] la2 hla2m
      obtain ⟨ha, hha⟩ : ∃ ha, m.asks.head? = some ha := by
        cases hasks : m.asks with
        | nil => rw [hasks] at hla1; simp at hla1
        | cons a t => exact ⟨a, rfl⟩
      have hha2 : ha.price ≤ la2.price := by
        rw [hpeq]
        exact head_price_min m.asks hsa ha hha la1 hla1
      by_cases hres : 0 < (matchLoop (fun p => decide (p ≤ o.price)) o m.asks []).1.remaining
      · rw [if_pos hres] at hlb2
        have hlb2m := List.mem_of_mem_head? hlb2
        have hr1p : (matchLoop (fun p => decide (p ≤ o.price)) o m.asks []).1.price = o.price := by
          rw [(matchLoop_spec (fun p => decide (p ≤ o.price)) o m.asks []).2]
        rcases addToBook_price _ _ m.bids lb2 hlb2m with h2 | ⟨lb1, h3, h4⟩
        · rw [h2, hr1p]
          have hcr := matchLoop_head_uncrossable (fun p => decide (p ≤ o.price)) o m.asks []
            hres la2 hla2
          simp only [decide_eq_false_iff_not, Nat.not_le] at hcr
          omega
        · obtain ⟨hb, hhb⟩ : ∃ hb, m.bids.head? = some hb := by
            cases hbids : m.bids with
            | nil => rw [hbids] at h3; simp at h3
            | cons a t => exact ⟨a, rfl⟩
          have h5 : lb1.price ≤ hb.price := head_price_max m.bids hsb hb hhb lb1 h3
          have h6 : hb.price < ha.price := hx hb (by simp [hhb]) ha (by simp [hha])
          omega
      · rw [if_neg hres] at hlb2
        have h6 : lb2.price < ha.price := hx lb2 hlb2 ha (by simp [hha])
        omega
  | ask =>
    simp only [Matcher.processOrder, ho]
    refine ⟨?_, ?_, ?_, ?_, ?_⟩
    · by_cases hres : 0 < (matchLoop (fun p => decide (o.price ≤ p)) o m.bids []).1.remaining
      · simp only [if_pos hres]
        refine addToBook_pairwise _ (fun a b => a < b) ?_ ?_ ?_ _ m.asks hsa
        · intro a b
          simp
        · intro a b h1 h2
          omega
        · intro a b c h1 h2
          omega
      · simp only [if_neg hres]
        exact hsa
    · exact matchLoop_book_pairwise _ (fun a b => b < a) o m.bids [] hsb
    · by_cases hres : 0 < (matchLoop (fun p => decide (o.price ≤ p)) o m.bids []).1.remaining
      · simp only [if_pos hres]
        exact addToBook_wf _ _ m.asks hwa hres
      · simp only [if_neg hres]
        exact hwa
    · exact matchLoop_book_wf _ o m.bids [] hwb
    · intro lb2 hlb2 la2 hla2
      have hlb2m : lb2 ∈ (matchLoop (fun p => decide (o.price ≤ p)) o m.bids []).2.1 :=
        List.mem_of_mem_head? hlb2
      obtain ⟨lb1, hlb1, hpeq, _⟩ :=
        matchLoop_book_origin (fun p => decide (o.price ≤ p)) o m.bids [] lb2 hlb2m
      obtain ⟨hb, hhb⟩ : ∃ hb, m.bids.head? = some hb := by
        cases hbids : m.bids with
        | nil => rw [hbids] at hlb1; simp at hlb1
        | cons a t => exact ⟨a, rfl⟩
      have hhb2 : lb2.price ≤ hb.price := by
        rw [hpeq]
        exact head_price_max m.bids hsb hb hhb lb1 hlb1
      by_cases hres : 0 < (matchLoop (fun p => decide (o.price ≤ p)) o m.bids []).1.remaining
      · rw [if_pos hres] at hla2
        have hla2m := List.mem_of_mem_head? hla2
        have hr1p : (matchLoop (fun p => decide (o.price ≤ p)) o m.bids []).1.price = o.price := by
          rw [(matchLoop_spec (fun p => decide (o.price ≤ p)) o m.bids []).2]
        rcases addToBook_price _ _ m.asks la2 hla2m with h2 | ⟨la1, h3, h4⟩
        · rw [h2, hr1p]
          have hcr := matchLoop_head_uncrossable (fun p => decide (o.price ≤ p)) o m.bids []
            hres lb2 hlb2
          simp only [decide_eq_false_iff_not, Nat.not_le] at hcr
          omega
        · obtain ⟨ha, hha⟩ : ∃ ha, m.asks.head? = some ha := by
            cases hasks : m.asks with
            | nil => rw [hasks] at h3; simp at h3
            | cons a t => exact ⟨a, rfl⟩
          have h5 : ha.price ≤ la1.price := head_price_min m.asks hsa ha hha la1 h3
          have h6 : hb.price < ha.price := hx hb (by simp [hhb]) ha (by simp [hha])
          omega
      · rw [if_neg hres] at hla2
        have h6 : hb.price < la2.price := hx hb (by simp [hhb]) la2 hla2
        omega

/-- Every reachable matcher state is well-formed. -/
theorem reachable_wf (m : Matcher) (h : Reachable m) : MatcherWF m := by
  induction h with
  | base =>
    refine ⟨?_, ?_, ?_, ?_, ?_⟩ <;> simp [Matcher.new]
  | step m o hr hq hf hid ih => exact processOrder_wf m o ih

/-- Crossability test run by the matching loop against the price of the best
opposite level: for a bid, ask levels priced at most the bid price; for an
ask, bid levels priced at least the ask price. -/
def crossPred (o : Order) : Nat → Bool :=
  match o.side with
  | Side.bid => fun p => decide (p ≤ o.price)
  | Side.ask => fun p => decide (o.price ≤ p)

/-- Book side an incoming order matches against. -/
def oppositeSide (m : Matcher) (o : Order) : List PriceLevel :=
  match o.side with
  | Side.bid => m.asks
  | Side.ask => m.bids

theorem processOrder_fills (m : Matcher) (o : Order) :
    (m.processOrder o).fills = (matchLoop (crossPred o) o (oppositeSide m o) []).2.2 := by
  cases ho : o.side <;> simp [Matcher.processOrder, ho, crossPred, oppositeSide]

/-- On a book sorted by R with crossability antitone along R, filtering the
crossable levels is the same as taking the crossable prefix. -/
theorem priorityOrders_eq_crossTW (c : Nat → Bool) (R : Nat → Nat → Prop)
    (book : List PriceLevel) (hs : book.Pairwise fun a b => R a.price b.price)
    (hmono : ∀ a b : Nat, R a b → c a = false → c b = false) :
    priorityOrders c book = crossTW c book := by
  induction book with
  | nil => rfl
  | cons lvl rest ih =>
    rw [List.pairwise_cons] at hs
    by_cases hc : c lvl.price = true
    · simp only [priorityOrders, crossTW, List.filter_cons, List.takeWhile_cons, hc,
        if_true, List.flatMap_cons]
      have h2 := ih hs.2
      simp only [priorityOrders, crossTW] at h2
      rw [h2]
    · have hrest : rest.filter (fun l => c l.price) = [] := by
        rw [List.filter_eq_nil]
        intro l hl
        simp only [Bool.not_eq_true]
        exact hmono lvl.price l.price (hs.1 l hl) (Bool.not_eq_true _ |>.mp hc)
      simp only [priorityOrders, crossTW, List.filter_cons, List.takeWhile_cons, hc]
      simp only [Bool.false_eq_true, if_neg hc, hrest]
      rfl

/-- Shared refinement fact: against a well-formed book, the fills of one
process_order call are the greedy consumption of the priority sequence. -/
theorem processOrder_fills_priority (m : Matcher) (o : Order) (hwf : MatcherWF m) :
    (m.processOrder o).fills =
      specFills o (priorityOrders (crossPred o) (oppositeSide m o)) := by
  obtain ⟨hsa, hsb, _, _, _⟩ := hwf
  rw [processOrder_fills, (matchLoop_spec (crossPred o) o (oppositeSide m o) []).1,
    List.nil_append]
  cases ho : o.side with
  | bid =>
    have hmono : ∀ a b : Nat, a < b → crossPred o a = false → crossPred o b = false := by
      intro a b hr hc
      simp only [crossPred, ho, decide_eq_false_iff_not, Nat.not_le] at hc ⊢
      omega
    have hsorted : (oppositeSide m o).Pairwise (fun a b => a.price < b.price) := by
      simpa [oppositeSide, ho] using hsa
    rw [priorityOrders_eq_crossTW (crossPred o) (fun a b => a < b) (oppositeSide m o)
      hsorted hmono]
  | ask =>
    have hmono : ∀ a b : Nat, b < a → crossPred o a = false → crossPred o b = false := by
      intro a b hr hc
      simp only [crossPred, ho, decide_eq_false_iff_not, Nat.not_le] at hc ⊢
      omega
    have hsorted : (oppositeSide m o).Pairwise (fun a b => b.price < a.price) := by
      simpa [oppositeSide, ho] using hsb
    rw [priorityOrders_eq_crossTW (crossPred o) (fun a b => b < a) (oppositeSide m o)
      hsorted hmono]

/-- C1: Price-time priority of matching.  For every reachable matcher state
and every incoming order, the fills emitted by one process_order call are
exactly the greedy consumption of the priority sequence — the resting orders
of all crossable opposite levels taken best price first and FIFO within each
level — so a better-priced level is fully consumed before a worse one is
touched regardless of arrival time, and orders at one price are matched in
arrival order. -/
theorem priceTimePriority (m : Matcher) (o : Order) (h : Reachable m) :
    (m.processOrder o).fills =
      specFills o (priorityOrders (crossPred o) (oppositeSide m o)) :=
  processOrder_fills_priority m o (reachable_wf m h)

/-- Witness for C1 at a concrete reachable state: one resting ask at 100,
incoming crossing bid at 101. -/
theorem priceTimePriority_witness :
    ((Matcher.new.processOrder (Order.new 1 100 10 Side.ask 0)).processOrder
        (Order.new 2 101 4 Side.bid 1)).fills =
      specFills (Order.new 2 101 4 Side.bid 1)
        (priorityOrders (crossPred (Order.new 2 101 4 Side.bid 1))
          (oppositeSide (Matcher.new.processOrder (Order.new 1 100 10 Side.ask 0))
            (Order.new 2 101 4 Side.bid 1))) :=
  priceTimePriority (Matcher.new.processOrder (Order.new 1 100 10 Side.ask 0))
    (Order.new 2 101 4 Side.bid 1)
    (Reachable.step _ _ Reachable.base (by decide) rfl (by decide))

/-- C2: No crossed book.  Starting from the empty matcher, after every
process_order call under the documented preconditions, whenever best_bid and
best_ask are both present, best_bid is strictly below best_ask. -/
theorem noCrossedBook (m : Matcher) (h : Reachable m) (pb pa : Nat)
    (hb : m.best_bid = some pb) (ha : m.best_ask = some pa) : pb < pa := by
  obtain ⟨_, _, _, _, hx⟩ := reachable_wf m h
  rw [Matcher.best_bid, Option.map_eq_some'] at hb
  rw [Matcher.best_ask, Option.map_eq_some'] at ha
  obtain ⟨lb, hlb, hpb⟩ := hb
  obtain ⟨la, hla, hpa⟩ := ha
  rw [← hpb, ← hpa]
  exact hx lb (by simp [hlb]) la (by simp [hla])

/-- Witness for C2: bid at 99 and ask at 101 resting, 99 < 101. -/
theorem noCrossedBook_witness : (99 : Nat) < 101 :=
  noCrossedBook
    ((Matcher.new.processOrder (Order.new 1 99 5 Side.bid 0)).processOrder
      (Order.new 2 101 5 Side.ask 1))
    (Reachable.step _ _ (Reachable.step _ _ Reachable.base (by decide) rfl (by decide))
      (by decide) rfl (by decide))
    99 101 rfl rfl

/-- C3: Worked scenario.  Ask(1, 100, 10) rests with level quantity 10; then
Bid(2, 100, 4) yields exactly Fill(maker 1, taker 2, 100, 4) leaving ask
level 100 at quantity 6; then Bid(3, 101, 10) yields exactly
Fill(maker 1, taker 3, 100, 6), empties the ask side, and rests 4 on the bid
side at 101. -/
theorem workedScenario :
    (Matcher.new.processOrder (Order.new 1 100 10 Side.ask 0)).fills = [] ∧
    levelQty (Matcher.new.processOrder (Order.new 1 100 10 Side.ask 0)).asks 100 = some 10 ∧
    ((Matcher.new.processOrder (Order.new 1 100 10 Side.ask 0)).processOrder
        (Order.new 2 100 4 Side.bid 1)).fills =
      [{ maker_id := 1, taker_id := 2, price := 100, quantity := 4 }] ∧
    levelQty ((Matcher.new.processOrder (Order.new 1 100 10 Side.ask 0)).processOrder
        (Order.new 2 100 4 Side.bid 1)).asks 100 = some 6 ∧
    (((Matcher.new.processOrder (Order.new 1 100 10 Side.ask 0)).processOrder
        (Order.new 2 100 4 Side.bid 1)).processOrder (Order.new 3 101 10 Side.bid 2)).fills =
      [{ maker_id := 1, taker_id := 3, price := 100, quantity := 6 }] ∧
    (((Matcher.new.processOrder (Order.new 1 100 10 Side.ask 0)).processOrder
        (Order.new 2 100 4 Side.bid 1)).processOrder
        (Order.new 3 101 10 Side.bid 2)).best_ask = none ∧
    (((Matcher.new.processOrder (Order.new 1 100 10 Side.ask 0)).processOrder
        (Order.new 2 100 4 Side.bid 1)).processOrder
        (Order.new 3 101 10 Side.bid 2)).best_bid = some 101 ∧
    levelQty (((Matcher.new.processOrder (Order.new 1 100 10 Side.ask 0)).processOrder
        (Order.new 2 100 4 Side.bid 1)).processOrder
        (Order.new 3 101 10 Side.bid 2)).bids 101 = some 4 := by
  decide

theorem bookOrders_mem (book : List PriceLevel) (o : Order) :
    o ∈ bookOrders book ↔ ∃ l ∈ book, o ∈ l.orders := by
  simp [bookOrders, List.mem_flatMap]

/-- C10: frame property of a zero-remaining submission — the call emits no
fills, inserts nothing, and the only state change is the cleared fill buffer
and the incremented orders_processed counter (both statistics counters and
both book sides unchanged). -/
theorem zeroRemainingFrame (m : Matcher) (o : Order) (h : o.remaining = 0) :
    m.processOrder o =
      { m with fills := [], orders_processed := m.orders_processed + 1 } := by
  cases ho : o.side <;>
    simp [Matcher.processOrder, ho, matchLoop_stop _ _ _ _ h, h, sumQty_nil]

/-- Witness for C10 at a zero-quantity order against a concrete book. -/
theorem zeroRemainingFrame_witness :
    (Matcher.new.processOrder (Order.new 5 70 3 Side.ask 0)).processOrder
        (Order.new 9 50 0 Side.bid 1) =
      { Matcher.new.processOrder (Order.new 5 70 3 Side.ask 0) with
          fills := [],
          orders_processed :=
            (Matcher.new.processOrder (Order.new 5 70 3 Side.ask 0)).orders_processed + 1 } :=
  zeroRemainingFrame (Matcher.new.processOrder (Order.new 5 70 3 Side.ask 0))
    (Order.new 9 50 0 Side.bid 1) (by decide)

/-- Counterexample to C7 as stated: a zero-quantity order submitted to the
empty matcher produces no fills, but contrary to the claim it does not rest
in the book — both sides stay empty, the order is nowhere. -/
theorem zeroQty_counterexample :
    (Matcher.new.processOrder (Order.new 7 50 0 Side.bid 0)).fills = [] ∧
    (Matcher.new.processOrder (Order.new 7 50 0 Side.bid 0)).bids = [] ∧
    (Matcher.new.processOrder (Order.new 7 50 0 Side.bid 0)).asks = [] := by
  decide

/-- C7 amended: an order with quantity = 0 (and filled = 0) reaching
process_order produces no fills and is NOT inserted into either book side —
both sides are left exactly as they were. -/
theorem zeroQtyNotInserted (m : Matcher) (o : Order) (hq : o.quantity = 0)
    (hf : o.filled = 0) :
    (m.processOrder o).fills = [] ∧ (m.processOrder o).bids = m.bids ∧
    (m.processOrder o).asks = m.asks := by
  have h : o.remaining = 0 := by simp [Order.remaining, hq]
  rw [zeroRemainingFrame m o h]
  exact ⟨rfl, rfl, rfl⟩

/-- Witness for the amended C7 at a concrete zero-quantity order. -/
theorem zeroQtyNotInserted_witness :
    ((Matcher.new.processOrder (Order.new 5 70 3 Side.ask 0)).processOrder
        (Order.new 8 60 0 Side.ask 1)).fills = [] ∧
    ((Matcher.new.processOrder (Order.new 5 70 3 Side.ask 0)).processOrder
        (Order.new 8 60 0 Side.ask 1)).bids =
      (Matcher.new.processOrder (Order.new 5 70 3 Side.ask 0)).bids ∧
    ((Matcher.new.processOrder (Order.new 5 70 3 Side.ask 0)).processOrder
        (Order.new 8 60 0 Side.ask 1)).asks =
      (Matcher.new.processOrder (Order.new 5 70 3 Side.ask 0)).asks :=
  zeroQtyNotInserted (Matcher.new.processOrder (Order.new 5 70 3 Side.ask 0))
    (Order.new 8 60 0 Side.ask 1) rfl rfl

theorem specFills_le (q : List Order) (t : Order) : sumQty (specFills t q) ≤ t.remaining := by
  induction q generalizing t with
  | nil => simp [specFills, sumQty]
  | cons maker rest ih =>
    by_cases hrem : t.remaining = 0
    · rw [specFills_of_filled _ _ hrem]
      simp [sumQty]
    · simp only [specFills, if_neg hrem, sumQty_cons]
      have h2 := ih { t with filled := t.filled + min t.remaining maker.remaining }
      rw [remaining_addFilled] at h2
      omega

theorem processOrder_books_bid (m : Matcher) (inc : Order) (h : inc.side = Side.bid) :
    (m.processOrder inc).asks =
      (matchLoop (fun p => decide (p ≤ inc.price)) inc m.asks []).2.1 ∧
    (m.processOrder inc).bids =
      (if 0 < (matchLoop (fun p => decide (p ≤ inc.price)) inc m.asks []).1.remaining
       then addToBook (fun a b => decide (b < a))
         (matchLoop (fun p => decide (p ≤ inc.price)) inc m.asks []).1 m.bids
       else m.bids) := by
  constructor <;> simp [Matcher.processOrder, h]

theorem processOrder_books_ask (m : Matcher) (inc : Order) (h : inc.side = Side.ask) :
    (m.processOrder inc).bids =
      (matchLoop (fun p => decide (inc.price ≤ p)) inc m.bids []).2.1 ∧
    (m.processOrder inc).asks =
      (if 0 < (matchLoop (fun p => decide (inc.price ≤ p)) inc m.bids []).1.remaining
       then addToBook (fun a b => decide (a < b))
         (matchLoop (fun p => decide (inc.price ≤ p)) inc m.bids []).1 m.asks
       else m.asks) := by
  constructor <;> simp [Matcher.processOrder, h]

theorem matchLoop_taker_static (crossable : Nat → Bool) (order : Order)
    (book : List PriceLevel) (fills : List Fill) :
    (matchLoop crossable order book fills).1.id = order.id ∧
    (matchLoop crossable order book fills).1.price = order.price ∧
    (matchLoop crossable order book fills).1.quantity = order.quantity ∧
    (matchLoop crossable order book fills).1.timestamp = order.timestamp := by
  rw [(matchLoop_spec crossable order book fills).2]
  exact ⟨rfl, rfl, rfl, rfl⟩

/-- Origin of orders resting after one walked-side pass: each comes from a
surviving level. -/
theorem matchLoop_orders_origin (crossable : Nat → Bool) (order : Order)
    (book : List PriceLevel) (fills : List Fill) :
    ∀ o2 ∈ bookOrders (matchLoop crossable order book fills).2.1,
      ∃ o1 ∈ bookOrders book, o2.id = o1.id ∧ o2.price = o1.price ∧
        o2.quantity = o1.quantity ∧ o2.timestamp = o1.timestamp ∧ o1.filled ≤ o2.filled := by
  intro o2 h2
  rw [bookOrders_mem] at h2
  obtain ⟨l2, hl2, ho2⟩ := h2
  obtain ⟨l1, hl1, _, he⟩ := matchLoop_book_origin crossable order book fills l2 hl2
  obtain ⟨o1, ho1, e⟩ := he o2 ho2
  exact ⟨o1, (bookOrders_mem book o1).mpr ⟨l1, hl1, ho1⟩, e⟩

/-- Origin of orders resting after resting an order: each comes from the
original book or is the rested order itself. -/
theorem addToBook_orders_origin (before : Nat → Nat → Bool) (o : Order)
    (book : List PriceLevel) :
    ∀ o2 ∈ bookOrders (addToBook before o book), o2 ∈ bookOrders book ∨ o2 = o := by
  intro o2 h2
  rw [bookOrders_mem] at h2
  obtain ⟨l2, hl2, ho2⟩ := h2
  rcases addToBook_mem before o book l2 hl2 with h3 | ⟨l1, h3, h4, h5⟩ | h3
  · exact Or.inl ((bookOrders_mem book o2).mpr ⟨l2, h3, ho2⟩)
  · rw [h5] at ho2
    simp only [PriceLevel.add, List.mem_append, List.mem_singleton] at ho2
    rcases ho2 with ho2 | ho2
    · exact Or.inl ((bookOrders_mem book o2).mpr ⟨l1, h3, ho2⟩)
    · exact Or.inr ho2
  · rw [h3] at ho2
    simp only [PriceLevel.add, PriceLevel.new, List.nil_append, List.mem_singleton] at ho2
    exact Or.inr ho2

/-- Across one full submission, every resting order either descends from a
previously resting order with the same identity fields and a filled field
that has not decreased, or is the incoming order's remainder. -/
theorem processOrder_orders_origin (m : Matcher) (inc : Order) :
    ∀ o2 ∈ allOrders (m.processOrder inc),
      (∃ o1 ∈ allOrders m, o2.id = o1.id ∧ o2.price = o1.price ∧
        o2.quantity = o1.quantity ∧ o2.timestamp = o1.timestamp ∧ o1.filled ≤ o2.filled) ∨
      o2.id = inc.id := by
  intro o2 h2
  cases ho : inc.side with
  | bid =>
    obtain ⟨ha, hb⟩ := processOrder_books_bid m inc ho
    rw [allOrders, ha, hb, List.mem_append] at h2
    rcases h2 with h2 | h2
    · by_cases hres :
        0 < (matchLoop (fun p => decide (p ≤ inc.price)) inc m.asks []).1.remaining
      · rw [if_pos hres] at h2
        rcases addToBook_orders_origin _ _ m.bids o2 h2 with h3 | h3
        · exact Or.inl ⟨o2, by rw [allOrders, List.mem_append]; exact Or.inl h3,
            rfl, rfl, rfl, rfl, Nat.le_refl _⟩
        · right
          rw [h3]
          exact (matchLoop_taker_static _ inc m.asks []).1
      · rw [if_neg hres] at h2
        exact Or.inl ⟨o2, by rw [allOrders, List.mem_append]; exact Or.inl h2,
          rfl, rfl, rfl, rfl, Nat.le_refl _⟩
    · obtain ⟨o1, ho1, e⟩ := matchLoop_orders_origin _ inc m.asks [] o2 h2
      exact Or.inl ⟨o1, by rw [allOrders, List.mem_append]; exact Or.inr ho1, e⟩
  | ask =>
    obtain ⟨hb, ha⟩ := processOrder_books_ask m inc ho
    rw [allOrders, ha, hb, List.mem_append] at h2
    rcases h2 with h2 | h2
    · obtain ⟨o1, ho1, e⟩ := matchLoop_orders_origin _ inc m.bids [] o2 h2
      exact Or.inl ⟨o1, by rw [allOrders, List.mem_append]; exact Or.inl ho1, e⟩
    · by_cases hres :
        0 < (matchLoop (fun p => decide (inc.price ≤ p)) inc m.bids []).1.remaining
      · rw [if_pos hres] at h2
        rcases addToBook_orders_origin _ _ m.asks o2 h2 with h3 | h3
        · exact Or.inl ⟨o2, by rw [allOrders, List.mem_append]; exact Or.inr h3,
            rfl, rfl, rfl, rfl, Nat.le_refl _⟩
        · right
          rw [h3]
          exact (matchLoop_taker_static _ inc m.bids []).1
      · rw [if_neg hres] at h2
        exact Or.inl ⟨o2, by rw [allOrders, List.mem_append]; exact Or.inr h2,
          rfl, rfl, rfl, rfl, Nat.le_refl _⟩

/-- C5: No over-fill.  In every reachable state every resting order satisfies
0 ≤ filled ≤ quantity; across one further submission every resting order
either descends from a resting order of the same identity and quantity whose
filled field did not decrease, or is the incoming order's remainder; and the
incoming order (filled = 0 precondition) is never filled beyond its
quantity. -/
theorem noOverfill (m : Matcher) (inc : Order) (h : Reachable m) :
    (∀ o ∈ allOrders m, 0 ≤ o.filled ∧ o.filled ≤ o.quantity) ∧
    (∀ o2 ∈ allOrders (m.processOrder inc),
      (∃ o1 ∈ allOrders m, o2.id = o1.id ∧ o2.quantity = o1.quantity ∧
        o1.filled ≤ o2.filled) ∨ o2.id = inc.id) ∧
    (inc.filled = 0 → sumQty (m.processOrder inc).fills ≤ inc.quantity) := by
  obtain ⟨_, _, hwa, hwb, _⟩ := reachable_wf m h
  refine ⟨?_, ?_, ?_⟩
  · intro o hmem
    rw [allOrders, List.mem_append] at hmem
    have hq : 0 < o.remaining := by
      rcases hmem with hmem | hmem
      · obtain ⟨l, hl, hol⟩ := (bookOrders_mem m.bids o).mp hmem
        exact ((hwb l hl).2.1 o hol).2
      · obtain ⟨l, hl, hol⟩ := (bookOrders_mem m.asks o).mp hmem
        exact ((hwa l hl).2.1 o hol).2
    rw [Order.remaining] at hq
    omega
  · intro o2 h2
    rcases processOrder_orders_origin m inc o2 h2 with ⟨o1, h1, e1, _, e3, _, e5⟩ | h3
    · exact Or.inl ⟨o1, h1, e1, e3, e5⟩
    · exact Or.inr h3
  · intro hf
    rw [processOrder_fills, (matchLoop_spec (crossPred inc) inc (oppositeSide m inc) []).1,
      List.nil_append]
    have h2 := specFills_le (crossTW (crossPred inc) (oppositeSide m inc)) inc
    rw [Order.remaining, hf] at h2
    omega

/-- Witness for C5 at a concrete reachable state and incoming order. -/
theorem noOverfill_witness :
    (∀ o ∈ allOrders (Matcher.new.processOrder (Order.new 1 100 10 Side.ask 0)),
      0 ≤ o.filled ∧ o.filled ≤ o.quantity) ∧
    (∀ o2 ∈ allOrders ((Matcher.new.processOrder (Order.new 1 100 10 Side.ask 0)).processOrder
        (Order.new 2 100 4 Side.bid 1)),
      (∃ o1 ∈ allOrders (Matcher.new.processOrder (Order.new 1 100 10 Side.ask 0)),
        o2.id = o1.id ∧ o2.quantity = o1.quantity ∧ o1.filled ≤ o2.filled) ∨
      o2.id = (Order.new 2 100 4 Side.bid 1).id) ∧
    ((Order.new 2 100 4 Side.bid 1).filled = 0 →
      sumQty (((Matcher.new.processOrder (Order.new 1 100 10 Side.ask 0)).processOrder
        (Order.new 2 100 4 Side.bid 1)).fills) ≤ (Order.new 2 100 4 Side.bid 1).quantity) :=
  noOverfill (Matcher.new.processOrder (Order.new 1 100 10 Side.ask 0))
    (Order.new 2 100 4 Side.bid 1)
    (Reachable.step _ _ Reachable.base (by decide) rfl (by decide))

/-- C6: Cached aggregate invariant.  In every reachable state each level's
total_qty equals the sum of remaining() over its queue; PriceLevel.add grows
total_qty by exactly the added order's remaining(); and one inner-loop pass
over a well-formed level removes from total_qty exactly the total quantity of
the fills it emits. -/
theorem cachedAggregate (m : Matcher) (h : Reachable m) :
    (∀ l ∈ m.bids ++ m.asks, l.total_qty = sumRemaining l.orders) ∧
    (∀ (lvl : PriceLevel) (o : Order), (lvl.add o).total_qty = lvl.total_qty + o.remaining) ∧
    (∀ (taker : Order) (lvl : PriceLevel), levelWF lvl →
      lvl.total_qty =
        (fillQueue taker lvl []).2.1.total_qty + sumQty (fillQueue taker lvl []).2.2) := by
  obtain ⟨_, _, hwa, hwb, _⟩ := reachable_wf m h
  refine ⟨?_, ?_, ?_⟩
  · intro l hl
    rcases List.mem_append.mp hl with hl | hl
    · exact (hwb l hl).2.2
    · exact (hwa l hl).2.2
  · intro lvl o
    rfl
  · intro taker lvl hlw
    obtain ⟨_, _, htq⟩ := hlw
    have hcons := specQueue_conservation lvl.orders taker
    rw [fillQueue_spec]
    simp only [List.nil_append]
    omega

/-- Witness for C6 at a concrete reachable state, level and taker. -/
theorem cachedAggregate_witness :
    (∀ l ∈ (Matcher.new.processOrder (Order.new 1 100 10 Side.ask 0)).bids ++
        (Matcher.new.processOrder (Order.new 1 100 10 Side.ask 0)).asks,
      l.total_qty = sumRemaining l.orders) ∧
    (∀ (lvl : PriceLevel) (o : Order), (lvl.add o).total_qty = lvl.total_qty + o.remaining) ∧
    (∀ (taker : Order) (lvl : PriceLevel), levelWF lvl →
      lvl.total_qty =
        (fillQueue taker lvl []).2.1.total_qty + sumQty (fillQueue taker lvl []).2.2) :=
  cachedAggregate (Matcher.new.processOrder (Order.new 1 100 10 Side.ask 0))
    (Reachable.step _ _ Reachable.base (by decide) rfl (by decide))

theorem priorityOrders_pos (c : Nat → Bool) (book : List PriceLevel)
    (hwf : ∀ l ∈ book, levelWF l) :
    ∀ o2 ∈ priorityOrders c book, 0 < o2.remaining := by
  intro o2 h2
  simp only [priorityOrders, List.mem_flatMap, List.mem_filter] at h2
  obtain ⟨l, ⟨hl, _⟩, hol⟩ := h2
  exact ((hwf l hl).2.1 o2 hol).2

theorem oppositeSide_wf (m : Matcher) (o : Order) (hwf : MatcherWF m) :
    ∀ l ∈ oppositeSide m o, levelWF l := by
  obtain ⟨_, _, hwa, hwb, _⟩ := hwf
  cases ho : o.side <;> simp only [oppositeSide, ho]
  · exact hwa
  · exact hwb

/-- C4: Fill record semantics.  Under the preconditions, the k-th fill of a
process_order call names the k-th maker of the priority sequence: its price
is that maker's resting price (never the taker's), its quantity is the
minimum of the incoming order's remaining quantity at that moment and the
maker's remaining quantity, and it is positive; the incoming order's filled
field grows by exactly the total filled quantity, and the matched side's
resting quantity drops by exactly that total. -/
theorem fillRecordSemantics (m : Matcher) (o : Order) (h : Reachable m)
    (hq : 0 < o.quantity) (hf : o.filled = 0) :
    (∀ (k : Nat) (f : Fill), ((m.processOrder o).fills)[k]? = some f →
      ∃ mk : Order, (priorityOrders (crossPred o) (oppositeSide m o))[k]? = some mk ∧
        f.maker_id = mk.id ∧ f.price = mk.price ∧ f.taker_id = o.id ∧
        f.quantity =
          min (o.remaining - sumQty ((m.processOrder o).fills.take k)) mk.remaining ∧
        0 < f.quantity) ∧
    (matchLoop (crossPred o) o (oppositeSide m o) []).1.filled =
      o.filled + sumQty (m.processOrder o).fills ∧
    bookRemaining (oppositeSide m o) =
      bookRemaining (matchLoop (crossPred o) o (oppositeSide m o) []).2.1 +
        sumQty (m.processOrder o).fills := by
  have hwf := reachable_wf m h
  have hfills := processOrder_fills_priority m o hwf
  refine ⟨?_, ?_, ?_⟩
  · intro k f hk
    rw [hfills] at hk ⊢
    obtain ⟨mk, hmk, e1, e2, e3⟩ :=
      specFills_get (priorityOrders (crossPred o) (oppositeSide m o)) o k f hk
    refine ⟨mk, hmk, e1, e2, ?_, e3, ?_⟩
    · exact specFills_taker _ o f (List.getElem?_mem hk)
    · exact specFills_pos _ o
        (priorityOrders_pos (crossPred o) (oppositeSide m o) (oppositeSide_wf m o hwf))
        f (List.getElem?_mem hk)
  · rw [(matchLoop_spec (crossPred o) o (oppositeSide m o) []).2, processOrder_fills,
      (matchLoop_spec (crossPred o) o (oppositeSide m o) []).1, List.nil_append]
  · have h2 := matchLoop_conservation (crossPred o) o (oppositeSide m o) []
    rw [sumQty_nil, Nat.add_zero] at h2
    rw [processOrder_fills]
    exact h2

/-- Witness for C4 at a concrete reachable state and crossing bid. -/
theorem fillRecordSemantics_witness :
    (∀ (k : Nat) (f : Fill),
      (((Matcher.new.processOrder (Order.new 1 100 10 Side.ask 0)).processOrder
          (Order.new 2 101 4 Side.bid 1)).fills)[k]? = some f →
      ∃ mk : Order,
        (priorityOrders (crossPred (Order.new 2 101 4 Side.bid 1))
          (oppositeSide (Matcher.new.processOrder (Order.new 1 100 10 Side.ask 0))
            (Order.new 2 101 4 Side.bid 1)))[k]? = some mk ∧
        f.maker_id = mk.id ∧ f.price = mk.price ∧
        f.taker_id = (Order.new 2 101 4 Side.bid 1).id ∧
        f.quantity =
          min ((Order.new 2 101 4 Side.bid 1).remaining -
            sumQty ((((Matcher.new.processOrder (Order.new 1 100 10 Side.ask 0)).processOrder
              (Order.new 2 101 4 Side.bid 1)).fills).take k)) mk.remaining ∧
        0 < f.quantity) ∧
    (matchLoop (crossPred (Order.new 2 101 4 Side.bid 1)) (Order.new 2 101 4 Side.bid 1)
        (oppositeSide (Matcher.new.processOrder (Order.new 1 100 10 Side.ask 0))
          (Order.new 2 101 4 Side.bid 1)) []).1.filled =
      (Order.new 2 101 4 Side.bid 1).filled +
        sumQty (((Matcher.new.processOrder (Order.new 1 100 10 Side.ask 0)).processOrder
          (Order.new 2 101 4 Side.bid 1)).fills) ∧
    bookRemaining (oppositeSide (Matcher.new.processOrder (Order.new 1 100 10 Side.ask 0))
        (Order.new 2 101 4 Side.bid 1)) =
      bookRemaining (matchLoop (crossPred (Order.new 2 101 4 Side.bid 1))
          (Order.new 2 101 4 Side.bid 1)
          (oppositeSide (Matcher.new.processOrder (Order.new 1 100 10 Side.ask 0))
            (Order.new 2 101 4 Side.bid 1)) []).2.1 +
        sumQty (((Matcher.new.processOrder (Order.new 1 100 10 Side.ask 0)).processOrder
          (Order.new 2 101 4 Side.bid 1)).fills) :=
  fillRecordSemantics (Matcher.new.processOrder (Order.new 1 100 10 Side.ask 0))
    (Order.new 2 101 4 Side.bid 1)
    (Reachable.step _ _ Reachable.base (by decide) rfl (by decide))
    (by decide) rfl

/-- Total number of resting orders on a book side. -/
def totalOrders (book : List PriceLevel) : Nat :=
  (book.map (fun l => l.orders.length)).sum

/-- Iteration-faithful fuelled rendering of the inner while loop: one fuel
unit per loop iteration, none on exhaustion.  Unlike fillQueueAux it loops
again even when the front maker survives, exactly as the Rust loop re-tests
its guard there. -/
def fillQueueAuxF (fuel : Nat) (taker : Order) (tq : Nat) (queue : List Order)
    (fills : List Fill) : Option (Order × Nat × List Order × List Fill) :=
  match fuel with
  | 0 => none
  | fuel + 1 =>
    match queue with
    | [] => some (taker, tq, [], fills)
    | maker :: rest =>
      if taker.remaining = 0 then some (taker, tq, maker :: rest, fills)
      else
        let fq := min taker.remaining maker.remaining
        let maker' : Order := { maker with filled := maker.filled + fq }
        let taker' : Order := { taker with filled := taker.filled + fq }
        let f : Fill := { maker_id := maker.id, taker_id := taker.id,
                          price := maker.price, quantity := fq }
        if maker'.remaining = 0 then
          fillQueueAuxF fuel taker' (tq - fq) rest (fills ++ [f])
        else
          fillQueueAuxF fuel taker' (tq - fq) (maker' :: rest) (fills ++ [f])

/-- Iteration-faithful fuelled rendering of the outer while loop: one fuel
unit per outer iteration, the inner loop run on the same fuel budget. -/
def matchLoopF (crossable : Nat → Bool) (fuel : Nat) (order : Order)
    (book : List PriceLevel) (fills : List Fill) :
    Option (Order × List PriceLevel × List Fill) :=
  match fuel with
  | 0 => none
  | fuel + 1 =>
    if order.remaining = 0 then some (order, book, fills)
    else
      match book with
      | [] => some (order, [], fills)
      | lvl :: rest =>
        if crossable lvl.price then
          match fillQueueAuxF fuel order lvl.total_qty lvl.orders fills with
          | none => none
          | some r =>
            if r.2.2.1 = [] then
              matchLoopF crossable fuel r.1 rest r.2.2.2
            else
              matchLoopF crossable fuel r.1
                ({ lvl with total_qty := r.2.1, orders := r.2.2.1 } :: rest) r.2.2.2
        else
          some (order, lvl :: rest, fills)

/-- Fuelled process_order: the loops run on the given fuel budget. -/
def processOrderF (fuel : Nat) (m : Matcher) (o : Order) : Option Matcher :=
  match o.side with
  | Side.bid =>
    match matchLoopF (fun p => decide (p ≤ o.price)) fuel o m.asks [] with
    | none => none
    | some r =>
      some { bids := if 0 < r.1.remaining then
                       addToBook (fun a b => decide (b < a)) r.1 m.bids
                     else m.bids,
             asks := r.2.1,
             fills := r.2.2,
             orders_processed := m.orders_processed + 1,
             total_fills := m.total_fills + r.2.2.length,
             total_volume := m.total_volume + sumQty r.2.2 }
  | Side.ask =>
    match matchLoopF (fun p => decide (o.price ≤ p)) fuel o m.bids [] with
    | none => none
    | some r =>
      some { bids := r.2.1,
             asks := if 0 < r.1.remaining then
                       addToBook (fun a b => decide (a < b)) r.1 m.asks
                     else m.asks,
             fills := r.2.2,
             orders_processed := m.orders_processed + 1,
             total_fills := m.total_fills + r.2.2.length,
             total_volume := m.total_volume + sumQty r.2.2 }

theorem fillQueueAuxF_stop (fuel : Nat) (taker : Order) (tq : Nat) (queue : List Order)
    (fills : List Fill) (h : taker.remaining = 0) (hfuel : 1 ≤ fuel) :
    fillQueueAuxF fuel taker tq queue fills = some (taker, tq, queue, fills) := by
  cases fuel with
  | zero => omega
  | succ fuel =>
    cases queue with
    | nil => rfl
    | cons maker rest => simp [fillQueueAuxF, h]

/-- Sufficient fuel makes the iteration-faithful inner loop terminate with
exactly the result of fillQueueAux. -/
theorem fillQueueAuxF_spec (queue : List Order) (fuel : Nat) (taker : Order) (tq : Nat)
    (fills : List Fill) (hfuel : queue.length + 2 ≤ fuel) :
    fillQueueAuxF fuel taker tq queue fills = some (fillQueueAux taker tq queue fills) := by
  induction queue generalizing fuel taker tq fills with
  | nil =>
    cases fuel with
    | zero => omega
    | succ fuel => rw [fillQueueAux_nil]; rfl
  | cons maker rest ih =>
    cases fuel with
    | zero => omega
    | succ fuel =>
      by_cases hrem : taker.remaining = 0
      · rw [fillQueueAux_stop taker tq maker rest fills hrem]
        simp [fillQueueAuxF, hrem]
      · by_cases hdone :
          maker.quantity - (maker.filled + min taker.remaining maker.remaining) = 0
        · rw [fillQueueAux_done taker tq maker rest fills hrem hdone]
          simp only [fillQueueAuxF, if_neg hrem]
          rw [if_pos (by simpa [Order.remaining] using hdone)]
          exact ih fuel _ _ _ (by simp at hfuel ⊢; omega)
        · rw [fillQueueAux_keep taker tq maker rest fills hrem hdone]
          simp only [fillQueueAuxF, if_neg hrem]
          rw [if_neg (by simpa [Order.remaining] using hdone)]
          have ht' :
              ({ taker with filled := taker.filled + min taker.remaining maker.remaining } :
                Order).remaining = 0 := by
            rw [remaining_addFilled]
            simp only [Order.remaining] at hdone hrem ⊢
            omega
          rw [fillQueueAuxF_stop fuel _ _ _ _ ht' (by omega)]

theorem matchLoopF_stop (crossable : Nat → Bool) (fuel : Nat) (order : Order)
    (book : List PriceLevel) (fills : List Fill) (h : order.remaining = 0) (hfuel : 1 ≤ fuel) :
    matchLoopF crossable fuel order book fills = some (order, book, fills) := by
  cases fuel with
  | zero => omega
  | succ fuel =>
    cases book with
    | nil => simp [matchLoopF, h]
    | cons lvl rest => simp [matchLoopF, h]

/-- Sufficient fuel makes the iteration-faithful outer loop terminate with
exactly the result of matchLoop: one fuel unit per iteration of either loop
suffices when the budget covers every resting order plus every level plus
two. -/
theorem matchLoopF_spec (crossable : Nat → Bool) (book : List PriceLevel) (fuel : Nat)
    (order : Order) (fills : List Fill)
    (hfuel : totalOrders book + book.length + 2 ≤ fuel) :
    matchLoopF crossable fuel order book fills =
      some (matchLoop crossable order book fills) := by
  induction book generalizing fuel order fills with
  | nil =>
    cases fuel with
    | zero => omega
    | succ fuel =>
      by_cases hrem : order.remaining = 0
      · rw [matchLoop_stop crossable order [] fills hrem]
        simp [matchLoopF, hrem]
      · rw [matchLoop_nil]
        simp [matchLoopF, hrem]
  | cons lvl rest ih =>
    cases fuel with
    | zero => omega
    | succ fuel =>
      by_cases hrem : order.remaining = 0
      · rw [matchLoop_stop crossable order (lvl :: rest) fills hrem]
        simp [matchLoopF, hrem]
      · by_cases hc : crossable lvl.price = true
        · have hinner : lvl.orders.length + 2 ≤ fuel := by
            simp only [totalOrders, List.map_cons, List.sum_cons, List.length_cons] at hfuel
            omega
          have h2 := fillQueueAuxF_spec lvl.orders fuel order lvl.total_qty fills hinner
          simp only [matchLoopF, if_neg hrem, hc, if_true, h2]
          by_cases hemp :
              (fillQueueAux order lvl.total_qty lvl.orders fills).2.2.1 = []
          · have hemp2 : (fillQueue order lvl fills).2.1.orders = [] := by
              simp only [fillQueue]
              exact hemp
            rw [matchLoop_removed crossable order lvl rest fills hrem hc hemp2]
            rw [if_pos hemp]
            have hrest : totalOrders rest + rest.length + 2 ≤ fuel := by
              simp only [totalOrders, List.map_cons, List.sum_cons, List.length_cons] at hfuel ⊢
              omega
            have h3 := ih fuel (fillQueueAux order lvl.total_qty lvl.orders fills).1
              (fillQueueAux order lvl.total_qty lvl.orders fills).2.2.2 hrest
            rw [h3]
            rfl
          · have hemp2 : ¬ (fillQueue order lvl fills).2.1.orders = [] := by
              simp only [fillQueue]
              exact hemp
            rw [matchLoop_kept crossable order lvl rest fills hrem hc hemp2]
            rw [if_neg hemp]
            have hr0 : (fillQueueAux order lvl.total_qty lvl.orders fills).1.remaining = 0 :=
              fillQueueAux_nonempty_filled order lvl.total_qty lvl.orders fills hemp
            rw [matchLoopF_stop crossable fuel _ _ _ hr0 (by omega)]
            rfl
        · rw [matchLoop_break crossable order lvl rest fills hrem hc]
          simp [matchLoopF, hrem, hc]

/-- C9: Termination.  For every matcher state and every order, the
iteration-faithful fuelled rendering of process_order (one fuel unit per
loop iteration, as the Rust nested while loops run) completes within a fuel
budget of resting-orders + levels + 2 on the walked side, returning exactly
the result of process_order; so every call runs to completion. -/
theorem processTerminates (m : Matcher) (o : Order) (fuel : Nat)
    (hfuel : totalOrders (oppositeSide m o) + (oppositeSide m o).length + 2 ≤ fuel) :
    processOrderF fuel m o = some (m.processOrder o) := by
  cases ho : o.side with
  | bid =>
    have hfuel2 : totalOrders m.asks + m.asks.length + 2 ≤ fuel := by
      simpa [oppositeSide, ho] using hfuel
    have h2 := matchLoopF_spec (fun p => decide (p ≤ o.price)) m.asks fuel o [] hfuel2
    simp [processOrderF, Matcher.processOrder, ho, h2]
  | ask =>
    have hfuel2 : totalOrders m.bids + m.bids.length + 2 ≤ fuel := by
      simpa [oppositeSide, ho] using hfuel
    have h2 := matchLoopF_spec (fun p => decide (o.price ≤ p)) m.bids fuel o [] hfuel2
    simp [processOrderF, Matcher.processOrder, ho, h2]

/-- Witness for C9 at a concrete state, order and fuel budget. -/
theorem processTerminates_witness :
    processOrderF 10 (Matcher.new.processOrder (Order.new 1 100 10 Side.ask 0))
        (Order.new 2 101 4 Side.bid 1) =
      some ((Matcher.new.processOrder (Order.new 1 100 10 Side.ask 0)).processOrder
        (Order.new 2 101 4 Side.bid 1)) :=
  processTerminates (Matcher.new.processOrder (Order.new 1 100 10 Side.ask 0))
    (Order.new 2 101 4 Side.bid 1) 10 (by decide)

/-- Checked u64 subtraction: none models the panic on underflow. -/
def checkedSub (a b : Nat) : Option Nat := if b ≤ a then some (a - b) else none

/-- Checked Order::remaining — none when quantity - filled would underflow. -/
def remainingC (o : Order) : Option Nat := checkedSub o.quantity o.filled

/-- Panic-explicit rendering of the inner loop: every u64 subtraction
(order.remaining() in the guard, maker.remaining() in the minimum and in the
maker_done test, total_qty -= fill_qty) goes through checkedSub, and the
front_mut().unwrap() is an explicit Option elimination whose none branch is
the panic; fuel as in fillQueueAuxF. -/
def fillQueueAuxC (fuel : Nat) (taker : Order) (tq : Nat) (queue : List Order)
    (fills : List Fill) : Option (Order × Nat × List Order × List Fill) :=
  match fuel with
  | 0 => none
  | fuel + 1 =>
    match remainingC taker with
    | none => none
    | some trem =>
      if trem = 0 then some (taker, tq, queue, fills)
      else if queue.isEmpty then some (taker, tq, queue, fills)
      else
        match queue.head? with
        | none => none
        | some maker =>
          match remainingC maker with
          | none => none
          | some mrem =>
            let fq := min trem mrem
            let maker' : Order := { maker with filled := maker.filled + fq }
            let taker' : Order := { taker with filled := taker.filled + fq }
            let f : Fill := { maker_id := maker.id, taker_id := taker.id,
                              price := maker.price, quantity := fq }
            match remainingC maker', checkedSub tq fq with
            | some mrem', some tq2 =>
              if mrem' = 0 then
                fillQueueAuxC fuel taker' tq2 queue.tail (fills ++ [f])
              else
                fillQueueAuxC fuel taker' tq2 (maker' :: queue.tail) (fills ++ [f])
            | some _, none => none
            | none, _ => none

/-- Panic-explicit rendering of the outer loop. -/
def matchLoopC (crossable : Nat → Bool) (fuel : Nat) (order : Order)
    (book : List PriceLevel) (fills : List Fill) :
    Option (Order × List PriceLevel × List Fill) :=
  match fuel with
  | 0 => none
  | fuel + 1 =>
    match remainingC order with
    | none => none
    | some orem =>
      if orem = 0 then some (order, book, fills)
      else
        match book with
        | [] => some (order, [], fills)
        | lvl :: rest =>
          if crossable lvl.price then
            match fillQueueAuxC fuel order lvl.total_qty lvl.orders fills with
            | none => none
            | some r =>
              if r.2.2.1 = [] then
                matchLoopC crossable fuel r.1 rest r.2.2.2
              else
                matchLoopC crossable fuel r.1
                  ({ lvl with total_qty := r.2.1, orders := r.2.2.1 } :: rest) r.2.2.2
          else
            some (order, lvl :: rest, fills)

/-- Panic-explicit process_order: the remainder guard's order.remaining()
(also used by PriceLevel::add) is checked once after the loop. -/
def processOrderC (fuel : Nat) (m : Matcher) (o : Order) : Option Matcher :=
  match o.side with
  | Side.bid =>
    match matchLoopC (fun p => decide (p ≤ o.price)) fuel o m.asks [] with
    | none => none
    | some r =>
      match remainingC r.1 with
      | none => none
      | some rrem =>
        some { bids := if 0 < rrem then
                         addToBook (fun a b => decide (b < a)) r.1 m.bids
                       else m.bids,
               asks := r.2.1,
               fills := r.2.2,
               orders_processed := m.orders_processed + 1,
               total_fills := m.total_fills + r.2.2.length,
               total_volume := m.total_volume + sumQty r.2.2 }
  | Side.ask =>
    match matchLoopC (fun p => decide (o.price ≤ p)) fuel o m.bids [] with
    | none => none
    | some r =>
      match remainingC r.1 with
      | none => none
      | some rrem =>
        some { bids := r.2.1,
               asks := if 0 < rrem then
                         addToBook (fun a b => decide (a < b)) r.1 m.asks
                       else m.asks,
               fills := r.2.2,
               orders_processed := m.orders_processed + 1,
               total_fills := m.total_fills + r.2.2.length,
               total_volume := m.total_volume + sumQty r.2.2 }

theorem remainingC_of_le (o : Order) (h : o.filled ≤ o.quantity) :
    remainingC o = some o.remaining := by
  simp [remainingC, checkedSub, h, Order.remaining]

theorem fillQueueAuxC_stop (fuel : Nat) (taker : Order) (tq : Nat) (queue : List Order)
    (fills : List Fill) (h : taker.remaining = 0) (htaker : taker.filled ≤ taker.quantity)
    (hfuel : 1 ≤ fuel) :
    fillQueueAuxC fuel taker tq queue fills = some (taker, tq, queue, fills) := by
  cases fuel with
  | zero => omega
  | succ fuel =>
    simp [fillQueueAuxC, remainingC_of_le taker htaker, h]

theorem fillQueueAux_taker_le (taker : Order) (tq : Nat) (queue : List Order)
    (fills : List Fill) (h : taker.filled ≤ taker.quantity) :
    (fillQueueAux taker tq queue fills).1.filled ≤
      (fillQueueAux taker tq queue fills).1.quantity := by
  rw [(fillQueueAux_spec taker tq queue fills).2.1]
  have h2 := specFills_le queue taker
  rw [Order.remaining] at h2
  dsimp only
  omega

/-- Under the level invariants no check fires: the panic-explicit inner loop
computes exactly fillQueueAux. -/
theorem fillQueueAuxC_spec (queue : List Order) (fuel : Nat) (taker : Order) (tq : Nat)
    (fills : List Fill) (hfuel : queue.length + 2 ≤ fuel)
    (htaker : taker.filled ≤ taker.quantity)
    (htq : sumRemaining queue ≤ tq)
    (hq : ∀ o ∈ queue, o.filled ≤ o.quantity) :
    fillQueueAuxC fuel taker tq queue fills = some (fillQueueAux taker tq queue fills) := by
  induction queue generalizing fuel taker tq fills with
  | nil =>
    cases fuel with
    | zero => omega
    | succ fuel =>
      rw [fillQueueAux_nil]
      by_cases hrem : taker.remaining = 0
      · simp [fillQueueAuxC, remainingC_of_le taker htaker, hrem]
      · simp [fillQueueAuxC, remainingC_of_le taker htaker, hrem]
  | cons maker rest ih =>
    cases fuel with
    | zero => omega
    | succ fuel =>
      have hmaker : maker.filled ≤ maker.quantity := hq maker (List.mem_cons_self _ _)
      by_cases hrem : taker.remaining = 0
      · rw [fillQueueAux_stop taker tq maker rest fills hrem]
        simp [fillQueueAuxC, remainingC_of_le taker htaker, hrem]
      · have hfq : min taker.remaining maker.remaining ≤ tq := by
          rw [sumRemaining_cons] at htq
          have := Nat.min_le_right taker.remaining maker.remaining
          omega
        have hm' : ({ maker with filled := maker.filled + min taker.remaining maker.remaining } : Order).filled ≤ ({ maker with filled := maker.filled + min taker.remaining maker.remaining } : Order).quantity := by
          dsimp only
          have h3 := Nat.min_le_right taker.remaining maker.remaining
          simp only [Order.remaining] at *
          omega
        have ht' : ({ taker with filled := taker.filled + min taker.remaining maker.remaining } : Order).filled ≤ ({ taker with filled := taker.filled + min taker.remaining maker.remaining } : Order).quantity := by
          dsimp only
          have h3 := Nat.min_le_left taker.remaining maker.remaining
          simp only [Order.remaining] at *
          omega
        simp only [fillQueueAuxC, remainingC_of_le taker htaker, if_neg hrem,
          List.isEmpty_cons, List.head?_cons, remainingC_of_le maker hmaker,
          List.tail_cons, remainingC_of_le _ hm',
          checkedSub, if_pos hfq, Bool.false_eq_true, if_false]
        by_cases hdone :
            maker.quantity - (maker.filled + min taker.remaining maker.remaining) = 0
        · rw [fillQueueAux_done taker tq maker rest fills hrem hdone]
          have hd2 : ({ maker with filled := maker.filled + min taker.remaining maker.remaining } : Order).remaining = 0 := by
            simpa [Order.remaining] using hdone
          rw [if_pos hd2]
          apply ih
          · simp at hfuel ⊢
            omega
          · exact ht'
          · rw [sumRemaining_cons] at htq
            have hle : min taker.remaining maker.remaining ≤ maker.remaining :=
              Nat.min_le_right _ _
            have heq : min taker.remaining maker.remaining = maker.remaining := by
              simp only [Order.remaining] at hdone ⊢
              omega
            omega
          · intro o ho
            exact hq o (List.mem_cons_of_mem _ ho)
        · rw [fillQueueAux_keep taker tq maker rest fills hrem hdone]
          have hd2 : ¬ ({ maker with filled := maker.filled + min taker.remaining maker.remaining } : Order).remaining = 0 := by
            simpa [Order.remaining] using hdone
          rw [if_neg hd2]
          have ht0 : ({ taker with filled := taker.filled + min taker.remaining maker.remaining } : Order).remaining = 0 := by
            rw [remaining_addFilled]
            simp only [Order.remaining] at hdone hrem ⊢
            omega
          rw [fillQueueAuxC_stop fuel _ _ _ _ ht0 ht' (by omega)]

theorem matchLoopC_stop (crossable : Nat → Bool) (fuel : Nat) (order : Order)
    (book : List PriceLevel) (fills : List Fill) (h : order.remaining = 0)
    (horder : order.filled ≤ order.quantity) (hfuel : 1 ≤ fuel) :
    matchLoopC crossable fuel order book fills = some (order, book, fills) := by
  cases fuel with
  | zero => omega
  | succ fuel =>
    cases book with
    | nil => simp [matchLoopC, remainingC_of_le order horder, h]
    | cons lvl rest => simp [matchLoopC, remainingC_of_le order horder, h]

/-- Under the book invariants no check fires: the panic-explicit outer loop
computes exactly matchLoop. -/
theorem matchLoopC_spec (crossable : Nat → Bool) (book : List PriceLevel) (fuel : Nat)
    (order : Order) (fills : List Fill)
    (hfuel : totalOrders book + book.length + 2 ≤ fuel)
    (horder : order.filled ≤ order.quantity)
    (hwf : ∀ l ∈ book, levelWF l) :
    matchLoopC crossable fuel order book fills =
      some (matchLoop crossable order book fills) := by
  induction book generalizing fuel order fills with
  | nil =>
    cases fuel with
    | zero => omega
    | succ fuel =>
      by_cases hrem : order.remaining = 0
      · rw [matchLoop_stop crossable order [] fills hrem]
        simp [matchLoopC, remainingC_of_le order horder, hrem]
      · rw [matchLoop_nil]
        simp [matchLoopC, remainingC_of_le order horder, hrem]
  | cons lvl rest ih =>
    cases fuel with
    | zero => omega
    | succ fuel =>
      by_cases hrem : order.remaining = 0
      · rw [matchLoop_stop crossable order (lvl :: rest) fills hrem]
        simp [matchLoopC, remainingC_of_le order horder, hrem]
      · by_cases hc : crossable lvl.price = true
        · have hlwf := hwf lvl (List.mem_cons_self _ _)
          obtain ⟨hne, hords, htq⟩ := hlwf
          have hinner : lvl.orders.length + 2 ≤ fuel := by
            simp only [totalOrders, List.map_cons, List.sum_cons, List.length_cons] at hfuel
            omega
          have h2 := fillQueueAuxC_spec lvl.orders fuel order lvl.total_qty fills hinner
            horder (by omega) (fun o ho => by
              have h3 := (hords o ho).2
              rw [Order.remaining] at h3
              omega)
          simp only [matchLoopC, remainingC_of_le order horder, if_neg hrem, hc, if_true, h2]
          by_cases hemp :
              (fillQueueAux order lvl.total_qty lvl.orders fills).2.2.1 = []
          · have hemp2 : (fillQueue order lvl fills).2.1.orders = [] := by
              simp only [fillQueue]
              exact hemp
            rw [matchLoop_removed crossable order lvl rest fills hrem hc hemp2]
            rw [if_pos hemp]
            have hrest : totalOrders rest + rest.length + 2 ≤ fuel := by
              simp only [totalOrders, List.map_cons, List.sum_cons, List.length_cons] at hfuel ⊢
              omega
            have h3 := ih fuel (fillQueueAux order lvl.total_qty lvl.orders fills).1
              (fillQueueAux order lvl.total_qty lvl.orders fills).2.2.2 hrest
              (fillQueueAux_taker_le order lvl.total_qty lvl.orders fills horder)
              (fun l hl => hwf l (List.mem_cons_of_mem _ hl))
            rw [h3]
            rfl
          · have hemp2 : ¬ (fillQueue order lvl fills).2.1.orders = [] := by
              simp only [fillQueue]
              exact hemp
            rw [matchLoop_kept crossable order lvl rest fills hrem hc hemp2]
            rw [if_neg hemp]
            have hr0 : (fillQueueAux order lvl.total_qty lvl.orders fills).1.remaining = 0 :=
              fillQueueAux_nonempty_filled order lvl.total_qty lvl.orders fills hemp
            rw [matchLoopC_stop crossable fuel _ _ _ hr0
              (fillQueueAux_taker_le order lvl.total_qty lvl.orders fills horder) (by omega)]
            rfl
        · rw [matchLoop_break crossable order lvl rest fills hrem hc]
          simp [matchLoopC, remainingC_of_le order horder, hrem, hc]

theorem matchLoop_taker_le (crossable : Nat → Bool) (order : Order) (book : List PriceLevel)
    (fills : List Fill) (h : order.filled ≤ order.quantity) :
    (matchLoop crossable order book fills).1.filled ≤
      (matchLoop crossable order book fills).1.quantity := by
  rw [(matchLoop_spec crossable order book fills).2]
  have h2 := specFills_le (crossTW crossable book) order
  rw [Order.remaining] at h2
  dsimp only
  omega

/-- C8: Panic freedom for well-formed input.  In the panic-explicit rendering
of process_order — a check at every u64 subtraction (the quantity - filled of
Order::remaining at each of its call sites, and the level's
total_qty -= fill_qty), an explicit Option elimination at the inner loop's
front_mut().unwrap(), and fuel per loop iteration — no check fires on any
reachable state and precondition-satisfying order: the checked run returns
exactly process_order's result. -/
theorem panicFreedom (m : Matcher) (o : Order) (h : Reachable m) (hq : 0 < o.quantity)
    (hf : o.filled = 0) (fuel : Nat)
    (hfuel : totalOrders (oppositeSide m o) + (oppositeSide m o).length + 2 ≤ fuel) :
    processOrderC fuel m o = some (m.processOrder o) := by
  obtain ⟨_, _, hwa, hwb, _⟩ := reachable_wf m h
  have horder : o.filled ≤ o.quantity := by omega
  cases ho : o.side with
  | bid =>
    have hfuel2 : totalOrders m.asks + m.asks.length + 2 ≤ fuel := by
      simpa [oppositeSide, ho] using hfuel
    have h2 := matchLoopC_spec (fun p => decide (p ≤ o.price)) m.asks fuel o [] hfuel2
      horder hwa
    have h3 := remainingC_of_le (matchLoop (fun p => decide (p ≤ o.price)) o m.asks []).1
      (matchLoop_taker_le _ o m.asks [] horder)
    simp [processOrderC, Matcher.processOrder, ho, h2, h3]
  | ask =>
    have hfuel2 : totalOrders m.bids + m.bids.length + 2 ≤ fuel := by
      simpa [oppositeSide, ho] using hfuel
    have h2 := matchLoopC_spec (fun p => decide (o.price ≤ p)) m.bids fuel o [] hfuel2
      horder hwb
    have h3 := remainingC_of_le (matchLoop (fun p => decide (o.price ≤ p)) o m.bids []).1
      (matchLoop_taker_le _ o m.bids [] horder)
    simp [processOrderC, Matcher.processOrder, ho, h2, h3]

/-- Witness for C8 at a concrete reachable state, order and fuel budget. -/
theorem panicFreedom_witness :
    processOrderC 10 (Matcher.new.processOrder (Order.new 1 100 10 Side.ask 0))
        (Order.new 2 101 4 Side.bid 1) =
      some ((Matcher.new.processOrder (Order.new 1 100 10 Side.ask 0)).processOrder
        (Order.new 2 101 4 Side.bid 1)) :=
  panicFreedom (Matcher.new.processOrder (Order.new 1 100 10 Side.ask 0))
    (Order.new 2 101 4 Side.bid 1)
    (Reachable.step _ _ Reachable.base (by decide) rfl (by decide))
    (by decide) rfl 10 (by decide)
